import Mathlib

/-!
Shallow embedding of `src/day_16.rs` (the time-bounded valve-activation
optimizer of this repository).  The Rust `HashMap<String, Valve>` is modelled
as an association list `List Valve` whose positions play the role of the dense
ids assigned by `keys().enumerate()`; the `f32` adjacency matrix with
`f32::INFINITY` sentinels is modelled as a matrix of `Option Nat` where `none`
stands for the infinite distance (all distances in the program are
non-negative integers, so `f32` arithmetic on them is exact); `u32`/`i32`
quantities are modelled as `Nat`/`Int`.  The depth-first worklist loop of
`solve_pt1` is embedded as a structurally recursive collection of the
terminated tracks of the same expansion tree (the loop order is irrelevant:
only the collected set feeds the final maximum); the recursion carries a fuel
argument that exceeds every reachable `remaining_time`, so the fuel branch is
never taken on the runs the program performs.  A Rust `unwrap` panic is
modelled by `Option`/by producing no tracks, which makes the final
`max_by(..).unwrap()` fail, i.e. `solve_pt1` returns `none`.
-/

namespace Day16

/-- Extended distances: `Option Nat` with `none` playing the role of the
`f32::INFINITY` sentinel used by `build_adjacency_matrix`. -/
abbrev EDist := Option Nat

/-- Addition of extended distances (`∞ + x = x + ∞ = ∞`), mirroring `f32`
addition on the matrix entries. -/
def eadd : EDist → EDist → EDist
  | some a, some b => some (a + b)
  | _, _ => none

/-- Strict order on extended distances (`none` is `∞`), mirroring the `f32`
comparison `ij > ik + kj` of the relaxation. -/
def elt : EDist → EDist → Bool
  | some a, some b => decide (a < b)
  | some _, none => true
  | none, _ => false

/-- Non-strict order on extended distances. -/
def ele (a b : EDist) : Prop := elt b a = false

/-- The value an entry holds after one relaxation attempt: the candidate `s`
replaces the current value `cur` exactly when `s < cur`. -/
def emin (cur s : EDist) : EDist := if elt s cur then s else cur

/-- List indexing, `none` out of range (models `ndarray` reads). -/
def lget {α : Type} : List α → Nat → Option α
  | [], _ => none
  | a :: _, 0 => some a
  | _ :: l, n+1 => lget l n

/-- Functional list update, identity out of range (models `ndarray` writes). -/
def lset {α : Type} : List α → Nat → α → List α
  | [], _, _ => []
  | _ :: l, 0, b => b :: l
  | a :: l, n+1, b => a :: lset l n b

/-- The dense `n × n` matrix `Array2<f32>` as a list of rows. -/
abbrev Mat := List (List EDist)

/-- Read `adjacency[(i, j)]`. -/
def mget (m : Mat) (i j : Nat) : EDist :=
  match lget m i with
  | none => none
  | some row =>
    match lget row j with
    | none => none
    | some v => v

/-- Write `adjacency[(i, j)] = v`. -/
def mset (m : Mat) (i j : Nat) (v : EDist) : Mat :=
  match lget m i with
  | none => m
  | some row => lset m i (lset row j v)

/-- A square matrix of side `n`. -/
def Square (m : Mat) (n : Nat) : Prop :=
  m.length = n ∧ ∀ row ∈ m, row.length = n

/-- The valve record parsed from one input line.  The Rust field `open` is a
Lean keyword, so it is called `opened` here. -/
structure Valve where
  name : String
  flow_rate : Nat
  destinations : List String
  opened : Bool
deriving Repr, DecidableEq

/-- The map `valve_to_id`: the dense id of a valve name, i.e. the position of the
first valve carrying that name (`HashMap` keys are distinct). -/
def valveId : List Valve → String → Option Nat
  | [], _ => none
  | v :: rest, nm => if v.name = nm then some 0 else (valveId rest nm).map (· + 1)

/-- The lookup `valves.get(name)`: the first valve carrying a name. -/
def getValve : List Valve → String → Option Valve
  | [], _ => none
  | v :: rest, nm => if v.name = nm then some v else getValve rest nm

/-- The map `id_to_valve`: the name sitting at a dense id. -/
def nameAt (vs : List Valve) (i : Nat) : Option String :=
  (lget vs i).map Valve.name

/-- The inner loop of `build_adjacency_matrix` that writes
`adjacency[(i, id(dest))] = 1.0` for every destination of valve `i`;
`valve_to_id.get(other_valve).unwrap()` panics on an unresolved neighbor
name, modelled by `none`. -/
def setEdges (vs : List Valve) (i : Nat) (dests : List String) (m : Mat) : Option Mat :=
  dests.foldlM (fun acc d => (valveId vs d).map (fun j => mset acc i j (some 1))) m

/-- The initialization phase of `build_adjacency_matrix`: start from an all
`INFINITY` matrix, and for every valve set its diagonal entry to `0` and the
entries toward its destinations to `1`. -/
def initAdjacency (vs : List Valve) : Option Mat :=
  vs.enum.foldlM
    (fun acc p => setEdges vs p.1 p.2.destinations (mset acc p.1 p.1 (some 0)))
    (List.replicate vs.length (List.replicate vs.length (none : EDist)))

/-- One Floyd–Warshall relaxation: `if ij > ik + kj { adjacency[(i,j)] = ik + kj }`. -/
def relax (k : Nat) (m : Mat) (p : Nat × Nat) : Mat :=
  if elt (eadd (mget m p.1 k) (mget m k p.2)) (mget m p.1 p.2)
  then mset m p.1 p.2 (eadd (mget m p.1 k) (mget m k p.2))
  else m

/-- The `(i, j)` pairs visited by the two inner loops, in loop order. -/
def pairs (n : Nat) : List (Nat × Nat) :=
  (List.range n).flatMap (fun i => (List.range n).map (fun j => (i, j)))

/-- One round of the outer loop: relax every `(i, j)` through intermediate `k`. -/
def floydK (n : Nat) (m : Mat) (k : Nat) : Mat :=
  (pairs n).foldl (relax k) m

/-- The full triple loop of `build_adjacency_matrix`. -/
def floyd (n : Nat) (m : Mat) : Mat :=
  (List.range n).foldl (floydK n) m

/-- The builder `build_adjacency_matrix`: dense index assignment (positions of the list),
adjacency initialization (which panics — `none` — on an unresolved neighbor
name), then the Floyd–Warshall relaxation. -/
def build_adjacency_matrix (vs : List Valve) : Option Mat :=
  (initAdjacency vs).map (floyd vs.length)

/-- One search state of `solve_pt1`.  The shared read-only references
(`valve_to_id`, `id_to_valve`, `adjacency`) are passed to the functions below
instead of being stored. -/
structure Track where
  valves : List Valve
  current_valve : String
  remaining_time : Int
  released_pressure : Nat
  path : List String
deriving Repr, DecidableEq

/-- Entry `i` of the `flow` vector: `valves.get(id_to_valve[i]).flow_rate`.
The `none` fallbacks are unreachable for `i < valves.length` and are chosen to
generate no candidate. -/
def flowAt (vs : List Valve) (i : Nat) : Nat :=
  match nameAt vs i with
  | none => 0
  | some nm =>
    match getValve vs nm with
    | none => 0
    | some v => v.flow_rate

/-- Entry `i` of the `open` test: `valves.get(id_to_valve[i]).open` (the source
encodes it as `0.0 / 1.0`; the fallbacks are unreachable for in-range `i`). -/
def openAt (vs : List Valve) (i : Nat) : Bool :=
  match nameAt vs i with
  | none => true
  | some nm =>
    match getValve vs nm with
    | none => true
    | some v => v.opened

/-- The update `new_valves.entry(destination_name).and_modify(|x| x.open = true)`:
mark the valve with that name opened (names are `HashMap` keys, hence
distinct). -/
def openValve (vs : List Valve) (nm : String) : List Valve :=
  vs.map (fun v => if v.name = nm then { v with opened := true } else v)

/-- The track pushed for candidate id `j` (valve `v`) at distance `d`:
`time = remaining_time - d - 1`, `release = time * flow * open`,
valves cloned with `v` opened, pressure increased by `release`. -/
def mkCand (t : Track) (j : Nat) (v : Valve) (d : Nat) : Track :=
  { valves := openValve t.valves v.name
  , current_valve := v.name
  , remaining_time := t.remaining_time - (d : Int) - 1
  , released_pressure := t.released_pressure +
      ((t.remaining_time - (d : Int) - 1) * (flowAt t.valves j : Int) *
        (if openAt t.valves j then 0 else 1)).toNat
  , path := t.path ++ [v.name] }

/-- The `new_tracks` vector of `Track::step`: every id `j` whose
`release[j] = time[j] * flow[j] * open[j]` is strictly positive.  When
`adjacency[(current, j)]` is `INFINITY`, `time[j]` is `-∞` and `release[j]`
is `-∞` or `NaN`, never `> 0`, hence the `none` branch produces nothing. -/
def Track.candidates (adj : Mat) (t : Track) (curId : Nat) : List Track :=
  (List.range t.valves.length).filterMap (fun j =>
    match lget t.valves j with
    | none => none
    | some v =>
      match mget adj curId j with
      | none => none
      | some d =>
        if 0 < (t.remaining_time - (d : Int) - 1) * (flowAt t.valves j : Int) *
            (if openAt t.valves j then 0 else 1)
        then some (mkCand t j v d) else none)

/-- The method `Track::step`: generate the candidate tracks; when there is none, return
the single terminated copy with `remaining_time = 0`.  The `none` branch
models the panic of `valve_to_id.get(&current_valve).unwrap()`: no track
survives, so the final `unwrap` of `solve_pt1` fails as the process dies. -/
def Track.step (adj : Mat) (t : Track) : List Track :=
  match valveId t.valves t.current_valve with
  | none => []
  | some curId =>
    let cands := Track.candidates adj t curId
    if cands.isEmpty then [{ t with remaining_time := 0 }] else cands

/-- The depth-first worklist loop of `solve_pt1`, embedded as the recursive
collection of the terminated tracks of the expansion tree: a popped track is
stepped, the successors with positive remaining time are explored further and
the others are terminated.  `fuel` strictly exceeds every reachable
`remaining_time` (each explored successor strictly decreases it), so the
`0` branch is never taken on actual runs. -/
def collectTerminated (adj : Mat) : Nat → Track → List Track
  | 0, _ => []
  | fuel+1, t =>
    (Track.step adj t).flatMap (fun nt =>
      if 0 < nt.remaining_time then collectTerminated adj fuel nt else [nt])

/-- The constructor `Track::new`, generalized over the time budget (the source pins the
budget to `30`, see `solve_pt1`). -/
def initTrack (vs : List Valve) (budget : Int) : Track :=
  { valves := vs
  , current_valve := "AA"
  , remaining_time := budget
  , released_pressure := 0
  , path := ["AA"] }

/-- The maximum `iter().max_by(..)` over released pressures: `none` on the empty list
(where the source's `unwrap` would panic). -/
def maxN : List Nat → Option Nat
  | [] => none
  | a :: l => some (match maxN l with | none => a | some b => max a b)

/-- The single-agent search at a given time budget: build the distance
matrix, run the search from `AA`, return the maximal released pressure among
terminated tracks. -/
def searchBest (vs : List Valve) (budget : Int) : Option Nat :=
  (build_adjacency_matrix vs).bind (fun adj =>
    maxN ((collectTerminated adj (budget.toNat + 1) (initTrack vs budget)).map
      Track.released_pressure))

/-- The solver `solve_pt1` after parsing: the search with the source's budget of 30. -/
def solve_pt1 (vs : List Valve) : Option Nat := searchBest vs 30

/-- Every explored state of the same expansion tree (each produced state,
terminal or not).  This is the spec-side notion used by the Best-Per-Mask
Table and by the claim comparing the returned maximum with the maximum over
all explored states. -/
def collectExplored (adj : Mat) : Nat → Track → List Track
  | 0, _ => []
  | fuel+1, t =>
    t :: (Track.step adj t).flatMap (fun nt =>
      if 0 < nt.remaining_time then collectExplored adj fuel nt else [nt])

/-- The bitmask of already-activated nodes of a state: bit `j` is set exactly
when the valve with dense id `j` is opened. -/
def maskOf (vs : List Valve) : Nat :=
  vs.enum.foldl (fun acc p => if p.2.opened then acc + 2 ^ p.1 else acc) 0

/-- Modelled from the spec: the Best-Per-Mask Table (`solve_pt2` is
`todo!()` in the source).  For every distinct mask reached by an explored
state, the maximal cumulative value observed with exactly that mask. -/
def bestPerMask (states : List Track) : List (Nat × Nat) :=
  ((states.map (fun t => maskOf t.valves)).dedup).map (fun m =>
    (m, (maxN ((states.filter (fun t => maskOf t.valves == m)).map
      Track.released_pressure)).getD 0))

/-- One step of the Dual-Agent Combiner fold: take the pair into account
exactly when its two masks are disjoint. -/
def combineStep (acc : Nat) (ab : (Nat × Nat) × (Nat × Nat)) : Nat :=
  if ab.1.1 &&& ab.2.1 == 0 then max acc (ab.1.2 + ab.2.2) else acc

/-- Modelled from the spec: the Dual-Agent Combiner (`solve_pt2` is
`todo!()` in the source): the maximum of `table[maskA] + table[maskB]` over
all pairs of entries with `maskA &&& maskB = 0`, and `0` for an empty table. -/
def dualCombine (table : List (Nat × Nat)) : Nat :=
  (table.flatMap (fun a => table.map (fun b => (a, b)))).foldl combineStep 0

/-- Modelled from the spec: the two-agent answer (`solve_pt2` is `todo!()`
in the source) — one search run at the two-agent budget feeds the
Best-Per-Mask Table, and the combiner takes the best disjoint pair. -/
def solve_pt2_model (vs : List Valve) (budget : Int) : Option Nat :=
  (build_adjacency_matrix vs).map (fun adj =>
    dualCombine (bestPerMask
      (collectExplored adj (budget.toNat + 1) (initTrack vs budget))))

/-- Modelled from the spec: the canonical worked example graph
(`inputs/day_16_example.txt` is not under `src/`); ten valves, start `AA`
of zero value, expected single-agent maximum 1651. -/
def exampleValves : List Valve :=
  [ { name := "AA", flow_rate := 0, destinations := ["DD", "II", "BB"], opened := false }
  , { name := "BB", flow_rate := 13, destinations := ["CC", "AA"], opened := false }
  , { name := "CC", flow_rate := 2, destinations := ["DD", "BB"], opened := false }
  , { name := "DD", flow_rate := 20, destinations := ["CC", "AA", "EE"], opened := false }
  , { name := "EE", flow_rate := 3, destinations := ["FF", "DD"], opened := false }
  , { name := "FF", flow_rate := 0, destinations := ["EE", "GG"], opened := false }
  , { name := "GG", flow_rate := 0, destinations := ["FF", "HH"], opened := false }
  , { name := "HH", flow_rate := 22, destinations := ["GG"], opened := false }
  , { name := "II", flow_rate := 0, destinations := ["AA", "JJ"], opened := false }
  , { name := "JJ", flow_rate := 21, destinations := ["II"], opened := false } ]

/-- Maximum of two optional pressures (`none` is the unit); proof-side helper
used to relate the flat list maximum of `solve_pt1` to a tree-shaped fold. -/
def omax : Option Nat → Option Nat → Option Nat
  | none, b => b
  | some a, none => some a
  | some a, some b => some (max a b)

/-- Proof-side reformulation of the search maximum: the same expansion tree
as `collectTerminated`, with the maximum computed along the tree instead of
over the flat list of terminated tracks.  The lemma `maxN_collect` below
proves it equal to the maximum `solve_pt1` takes. -/
def bestFrom (adj : Mat) : Nat → Track → Option Nat
  | 0, _ => none
  | fuel+1, t =>
    ((Track.step adj t).map (fun nt =>
      if 0 < nt.remaining_time then bestFrom adj fuel nt else some nt.released_pressure)).foldl
      omax none

def adjS0 : Mat :=
  [[some 0, some 1, none, some 1, none, none, none, none, some 1, none],  [some 1, some 0, some 1, none, none, none, none, none, none, none],  [none, some 1, some 0, some 1, none, none, none, none, none, none],  [some 1, none, some 1, some 0, some 1, none, none, none, none, none],  [none, none, none, some 1, some 0, some 1, none, none, none, none],  [none, none, none, none, some 1, some 0, some 1, none, none, none],  [none, none, none, none, none, some 1, some 0, some 1, none, none],  [none, none, none, none, none, none, some 1, some 0, none, none],  [some 1, none, none, none, none, none, none, none, some 0, some 1],  [none, none, none, none, none, none, none, none, some 1, some 0]]

def adjS1 : Mat :=
  [[some 0, some 1, none, some 1, none, none, none, none, some 1, none],  [some 1, some 0, some 1, some 2, none, none, none, none, some 2, none],  [none, some 1, some 0, some 1, none, none, none, none, none, none],  [some 1, some 2, some 1, some 0, some 1, none, none, none, some 2, none],  [none, none, none, some 1, some 0, some 1, none, none, none, none],  [none, none, none, none, some 1, some 0, some 1, none, none, none],  [none, none, none, none, none, some 1, some 0, some 1, none, none],  [none, none, none, none, none, none, some 1, some 0, none, none],  [some 1, some 2, none, some 2, none, none, none, none, some 0, some 1],  [none, none, none, none, none, none, none, none, some 1, some 0]]

def adjS2 : Mat :=
  [[some 0, some 1, some 2, some 1, none, none, none, none, some 1, none],  [some 1, some 0, some 1, some 2, none, none, none, none, some 2, none],  [some 2, some 1, some 0, some 1, none, none, none, none, some 3, none],  [some 1, some 2, some 1, some 0, some 1, none, none, none, some 2, none],  [none, none, none, some 1, some 0, some 1, none, none, none, none],  [none, none, none, none, some 1, some 0, some 1, none, none, none],  [none, none, none, none, none, some 1, some 0, some 1, none, none],  [none, none, none, none, none, none, some 1, some 0, none, none],  [some 1, some 2, some 3, some 2, none, none, none, none, some 0, some 1],  [none, none, none, none, none, none, none, none, some 1, some 0]]

def adjS3 : Mat :=
  [[some 0, some 1, some 2, some 1, none, none, none, none, some 1, none],  [some 1, some 0, some 1, some 2, none, none, none, none, some 2, none],  [some 2, some 1, some 0, some 1, none, none, none, none, some 3, none],  [some 1, some 2, some 1, some 0, some 1, none, none, none, some 2, none],  [none, none, none, some 1, some 0, some 1, none, none, none, none],  [none, none, none, none, some 1, some 0, some 1, none, none, none],  [none, none, none, none, none, some 1, some 0, some 1, none, none],  [none, none, none, none, none, none, some 1, some 0, none, none],  [some 1, some 2, some 3, some 2, none, none, none, none, some 0, some 1],  [none, none, none, none, none, none, none, none, some 1, some 0]]

def adjS4 : Mat :=
  [[some 0, some 1, some 2, some 1, some 2, none, none, none, some 1, none],  [some 1, some 0, some 1, some 2, some 3, none, none, none, some 2, none],  [some 2, some 1, some 0, some 1, some 2, none, none, none, some 3, none],  [some 1, some 2, some 1, some 0, some 1, none, none, none, some 2, none],  [some 2, some 3, some 2, some 1, some 0, some 1, none, none, some 3, none],  [none, none, none, none, some 1, some 0, some 1, none, none, none],  [none, none, none, none, none, some 1, some 0, some 1, none, none],  [none, none, none, none, none, none, some 1, some 0, none, none],  [some 1, some 2, some 3, some 2, some 3, none, none, none, some 0, some 1],  [none, none, none, none, none, none, none, none, some 1, some 0]]

def adjS5 : Mat :=
  [[some 0, some 1, some 2, some 1, some 2, some 3, none, none, some 1, none],  [some 1, some 0, some 1, some 2, some 3, some 4, none, none, some 2, none],  [some 2, some 1, some 0, some 1, some 2, some 3, none, none, some 3, none],  [some 1, some 2, some 1, some 0, some 1, some 2, none, none, some 2, none],  [some 2, some 3, some 2, some 1, some 0, some 1, none, none, some 3, none],  [some 3, some 4, some 3, some 2, some 1, some 0, some 1, none, some 4, none],  [none, none, none, none, none, some 1, some 0, some 1, none, none],  [none, none, none, none, none, none, some 1, some 0, none, none],  [some 1, some 2, some 3, some 2, some 3, some 4, none, none, some 0, some 1],  [none, none, none, none, none, none, none, none, some 1, some 0]]

def adjS6 : Mat :=
  [[some 0, some 1, some 2, some 1, some 2, some 3, some 4, none, some 1, none],  [some 1, some 0, some 1, some 2, some 3, some 4, some 5, none, some 2, none],  [some 2, some 1, some 0, some 1, some 2, some 3, some 4, none, some 3, none],  [some 1, some 2, some 1, some 0, some 1, some 2, some 3, none, some 2, none],  [some 2, some 3, some 2, some 1, some 0, some 1, some 2, none, some 3, none],  [some 3, some 4, some 3, some 2, some 1, some 0, some 1, none, some 4, none],  [some 4, some 5, some 4, some 3, some 2, some 1, some 0, some 1, some 5, none],  [none, none, none, none, none, none, some 1, some 0, none, none],  [some 1, some 2, some 3, some 2, some 3, some 4, some 5, none, some 0, some 1],  [none, none, none, none, none, none, none, none, some 1, some 0]]

def adjS7 : Mat :=
  [[some 0, some 1, some 2, some 1, some 2, some 3, some 4, some 5, some 1, none],  [some 1, some 0, some 1, some 2, some 3, some 4, some 5, some 6, some 2, none],  [some 2, some 1, some 0, some 1, some 2, some 3, some 4, some 5, some 3, none],  [some 1, some 2, some 1, some 0, some 1, some 2, some 3, some 4, some 2, none],  [some 2, some 3, some 2, some 1, some 0, some 1, some 2, some 3, some 3, none],  [some 3, some 4, some 3, some 2, some 1, some 0, some 1, some 2, some 4, none],  [some 4, some 5, some 4, some 3, some 2, some 1, some 0, some 1, some 5, none],  [some 5, some 6, some 5, some 4, some 3, some 2, some 1, some 0, some 6, none],  [some 1, some 2, some 3, some 2, some 3, some 4, some 5, some 6, some 0, some 1],  [none, none, none, none, none, none, none, none, some 1, some 0]]

def adjS8 : Mat :=
  [[some 0, some 1, some 2, some 1, some 2, some 3, some 4, some 5, some 1, none],  [some 1, some 0, some 1, some 2, some 3, some 4, some 5, some 6, some 2, none],  [some 2, some 1, some 0, some 1, some 2, some 3, some 4, some 5, some 3, none],  [some 1, some 2, some 1, some 0, some 1, some 2, some 3, some 4, some 2, none],  [some 2, some 3, some 2, some 1, some 0, some 1, some 2, some 3, some 3, none],  [some 3, some 4, some 3, some 2, some 1, some 0, some 1, some 2, some 4, none],  [some 4, some 5, some 4, some 3, some 2, some 1, some 0, some 1, some 5, none],  [some 5, some 6, some 5, some 4, some 3, some 2, some 1, some 0, some 6, none],  [some 1, some 2, some 3, some 2, some 3, some 4, some 5, some 6, some 0, some 1],  [none, none, none, none, none, none, none, none, some 1, some 0]]

def adjS9 : Mat :=
  [[some 0, some 1, some 2, some 1, some 2, some 3, some 4, some 5, some 1, some 2],  [some 1, some 0, some 1, some 2, some 3, some 4, some 5, some 6, some 2, some 3],  [some 2, some 1, some 0, some 1, some 2, some 3, some 4, some 5, some 3, some 4],  [some 1, some 2, some 1, some 0, some 1, some 2, some 3, some 4, some 2, some 3],  [some 2, some 3, some 2, some 1, some 0, some 1, some 2, some 3, some 3, some 4],  [some 3, some 4, some 3, some 2, some 1, some 0, some 1, some 2, some 4, some 5],  [some 4, some 5, some 4, some 3, some 2, some 1, some 0, some 1, some 5, some 6],  [some 5, some 6, some 5, some 4, some 3, some 2, some 1, some 0, some 6, some 7],  [some 1, some 2, some 3, some 2, some 3, some 4, some 5, some 6, some 0, some 1],  [some 2, some 3, some 4, some 3, some 4, some 5, some 6, some 7, some 1, some 0]]

def adjS10 : Mat :=
  [[some 0, some 1, some 2, some 1, some 2, some 3, some 4, some 5, some 1, some 2],  [some 1, some 0, some 1, some 2, some 3, some 4, some 5, some 6, some 2, some 3],  [some 2, some 1, some 0, some 1, some 2, some 3, some 4, some 5, some 3, some 4],  [some 1, some 2, some 1, some 0, some 1, some 2, some 3, some 4, some 2, some 3],  [some 2, some 3, some 2, some 1, some 0, some 1, some 2, some 3, some 3, some 4],  [some 3, some 4, some 3, some 2, some 1, some 0, some 1, some 2, some 4, some 5],  [some 4, some 5, some 4, some 3, some 2, some 1, some 0, some 1, some 5, some 6],  [some 5, some 6, some 5, some 4, some 3, some 2, some 1, some 0, some 6, some 7],  [some 1, some 2, some 3, some 2, some 3, some 4, some 5, some 6, some 0, some 1],  [some 2, some 3, some 4, some 3, some 4, some 5, some 6, some 7, some 1, some 0]]

/-- A two-valve graph whose start valve `AA` carries a strictly positive
activation value (used to settle the claim about activating the start). -/
def c4Valves : List Valve :=
  [ { name := "AA", flow_rate := 1, destinations := ["BB"], opened := false }
  , { name := "BB", flow_rate := 0, destinations := ["AA"], opened := false } ]

/-- A graph with a self-loop at `AA` and an asymmetric tunnel `AA -> BB`
(every neighbor name resolves), exercising the distance-matrix invariants. -/
def c6Valves : List Valve :=
  [ { name := "AA", flow_rate := 0, destinations := ["AA", "BB"], opened := false }
  , { name := "BB", flow_rate := 0, destinations := ["CC"], opened := false }
  , { name := "CC", flow_rate := 0, destinations := ["BB"], opened := false } ]

/-- A graph in which `AA` lists the unknown neighbor name `ZZ`. -/
def c8Valves : List Valve :=
  [ { name := "AA", flow_rate := 0, destinations := ["ZZ"], opened := false } ]

/-- A degenerate graph (no positive activation value) that does not contain
the start valve `AA`. -/
def c9Valves : List Valve :=
  [ { name := "BB", flow_rate := 0, destinations := ["BB"], opened := false } ]

/-- A degenerate two-valve graph containing `AA`. -/
def degenValves : List Valve :=
  [ { name := "AA", flow_rate := 0, destinations := ["BB"], opened := false }
  , { name := "BB", flow_rate := 0, destinations := ["AA"], opened := false } ]

/-- A small two-valve graph with one profitable valve, used as concrete
witness input. -/
def wValves : List Valve :=
  [ { name := "AA", flow_rate := 0, destinations := ["BB"], opened := false }
  , { name := "BB", flow_rate := 5, destinations := ["AA"], opened := false } ]


/-- The triangle inequality through a fixed intermediate node `c`. -/
def triangleVia (m : Mat) (c : Nat) : Prop :=
  ∀ i j, ele (mget m i j) (eadd (mget m i c) (mget m c j))

/-- The dense-id tunnel relation of the graph: the valve at index `x` lists a
neighbor name that resolves to index `y`. -/
def edgeTo (vs : List Valve) (x y : Nat) : Prop :=
  match lget vs x with
  | none => False
  | some vi => ∃ d ∈ vi.destinations, valveId vs d = some y

instance edgeToDecidable (vs : List Valve) (x y : Nat) : Decidable (edgeTo vs x y) :=
  match h : lget vs x with
  | none => isFalse (by simp [edgeTo, h])
  | some vi =>
    decidable_of_iff (∃ d ∈ vi.destinations, valveId vs d = some y)
      (by simp [edgeTo, h])

/-- The distance matrix of `c4Valves` (checked by the witness lemmas). -/
def c4Adj : Mat := [[some 0, some 1], [some 1, some 0]]

/-- The distance matrix of `c6Valves` (checked in the counterexample). -/
def c6Adj : Mat :=
  [[some 1, some 1, some 2], [none, some 0, some 1], [none, some 1, some 0]]

/-- The distance matrix of `wValves` (checked by the witness lemmas). -/
def wAdj : Mat := [[some 0, some 1], [some 1, some 0]]

/-- Proof-side constructor of a search state over the worked example graph:
the listed valves opened, together with the position, remaining time,
released pressure and path of the state.  It is only used to spell out the
intermediate states of the expansion tree of the worked example. -/
def exTrack (nms : List String) (cur : String) (rt : Int) (rp : Nat) (path : List String) : Track :=
  { valves := nms.foldl openValve exampleValves
  , current_valve := cur
  , remaining_time := rt
  , released_pressure := rp
  , path := path }

/-! Basic facts about the extended distances. -/

theorem ele_refl (a : EDist) : ele a a := by
  cases a <;> simp [ele, elt]

theorem ele_none (a : EDist) : ele a none := by
  cases a <;> simp [ele, elt]

theorem ele_trans {a b c : EDist} (h1 : ele a b) (h2 : ele b c) : ele a c := by
  cases a <;> cases b <;> cases c <;> simp_all [ele, elt] <;> omega

theorem eadd_comm (a b : EDist) : eadd a b = eadd b a := by
  cases a <;> cases b <;> simp [eadd] <;> omega

theorem ele_eadd_left (a b : EDist) : ele a (eadd a b) := by
  cases a <;> cases b <;> simp [ele, elt, eadd]

theorem ele_eadd_right (a b : EDist) : ele b (eadd a b) := by
  cases a <;> cases b <;> simp [ele, elt, eadd]

theorem eadd_ele_eadd {a b c d : EDist} (h1 : ele a c) (h2 : ele b d) :
    ele (eadd a b) (eadd c d) := by
  cases a <;> cases b <;> cases c <;> cases d <;> simp_all [ele, elt, eadd] <;> omega

theorem emin_ele_left (a s : EDist) : ele (emin a s) a := by
  unfold emin; split
  · cases a <;> cases s <;> simp_all [ele, elt] <;> omega
  · exact ele_refl a

theorem emin_ele_right (a s : EDist) : ele (emin a s) s := by
  unfold emin; split
  · exact ele_refl s
  · cases a <;> cases s <;> simp_all [ele, elt] <;> omega

theorem emin_eq_of_ele {a s : EDist} (h : ele a s) : emin a s = a := by
  cases a <;> cases s <;> simp_all [emin, elt, ele] <;> omega

theorem emin_emin (a s : EDist) : emin (emin a s) s = emin a s := by
  rcases em : emin a s with _ | v <;> unfold emin at * <;>
    cases a <;> cases s <;> simp_all [elt] <;> split at em <;> simp_all <;> omega

theorem ele_emin {c a s : EDist} (h1 : ele c a) (h2 : ele c s) : ele c (emin a s) := by
  unfold emin; split
  · exact h2
  · exact h1

theorem emin_cases (a s : EDist) : emin a s = a ∨ emin a s = s := by
  unfold emin; split
  · exact Or.inr rfl
  · exact Or.inl rfl

theorem ele_some_zero {a : EDist} (h : ele a (some 0)) : a = some 0 := by
  cases a <;> simp_all [ele, elt]

/-! Basic facts about list reads and writes. -/

theorem lget_eq_none_iff {α : Type} (l : List α) (i : Nat) :
    lget l i = none ↔ l.length ≤ i := by
  induction l generalizing i with
  | nil => simp [lget]
  | cons a l ih =>
    cases i with
    | zero => simp [lget]
    | succ n => simpa [lget, Nat.succ_le_succ_iff] using ih n

theorem lget_isSome_iff {α : Type} (l : List α) (i : Nat) :
    (lget l i).isSome ↔ i < l.length := by
  rcases h : lget l i with _ | v
  · have := (lget_eq_none_iff l i).mp h
    simp [Nat.not_lt_of_le this]
  · simp only [Option.isSome_some, true_iff]
    by_contra hlt
    have := (lget_eq_none_iff l i).mpr (Nat.le_of_not_lt hlt)
    simp [this] at h

theorem lget_replicate {α : Type} (n i : Nat) (a : α) :
    lget (List.replicate n a) i = if i < n then some a else none := by
  induction n generalizing i with
  | zero => simp [lget]
  | succ m ih =>
    cases i with
    | zero => simp [List.replicate, lget]
    | succ k => simp [List.replicate, lget, ih k, Nat.succ_lt_succ_iff]

theorem lset_length {α : Type} (l : List α) (i : Nat) (b : α) :
    (lset l i b).length = l.length := by
  induction l generalizing i with
  | nil => simp [lset]
  | cons a l ih =>
    cases i with
    | zero => simp [lset]
    | succ n => simp [lset, ih n]

theorem lget_lset_self {α : Type} {l : List α} {i : Nat} (h : i < l.length) (b : α) :
    lget (lset l i b) i = some b := by
  induction l generalizing i with
  | nil => simp at h
  | cons a l ih =>
    cases i with
    | zero => simp [lset, lget]
    | succ n => simpa [lset, lget] using ih (Nat.lt_of_succ_lt_succ h)

theorem lget_lset_ne {α : Type} (l : List α) {i j : Nat} (h : i ≠ j) (b : α) :
    lget (lset l i b) j = lget l j := by
  induction l generalizing i j with
  | nil => simp [lset]
  | cons a l ih =>
    cases i with
    | zero =>
      cases j with
      | zero => exact absurd rfl h
      | succ m => simp [lset, lget]
    | succ n =>
      cases j with
      | zero => simp [lset, lget]
      | succ m => simpa [lset, lget] using ih (fun hh => h (by simp [hh]))

theorem mem_of_lget {α : Type} {l : List α} {i : Nat} {a : α} (h : lget l i = some a) :
    a ∈ l := by
  induction l generalizing i with
  | nil => simp [lget] at h
  | cons x l ih =>
    cases i with
    | zero => simp [lget] at h; simp [h]
    | succ n => exact List.mem_cons_of_mem _ (ih h)

theorem lget_mem_lset {α : Type} {l : List α} {i : Nat} {b : α} {r : α}
    (h : r ∈ lset l i b) : r = b ∨ r ∈ l := by
  induction l generalizing i with
  | nil => simp [lset] at h
  | cons a l ih =>
    cases i with
    | zero =>
      rcases List.mem_cons.mp h with h | h
      · exact Or.inl h
      · exact Or.inr (List.mem_cons_of_mem _ h)
    | succ n =>
      rcases List.mem_cons.mp h with h | h
      · exact Or.inr (by simp [h])
      · rcases ih h with h | h
        · exact Or.inl h
        · exact Or.inr (List.mem_cons_of_mem _ h)

/-! Basic facts about matrix reads and writes. -/

theorem Square_mset {m : Mat} {n : Nat} (hs : Square m n) (a b : Nat) (v : EDist) :
    Square (mset m a b v) n := by
  rcases hs with ⟨hlen, hrow⟩
  unfold mset
  rcases h : lget m a with _ | row
  · exact ⟨hlen, hrow⟩
  · refine ⟨by simp [lset_length, hlen], ?_⟩
    intro r hr
    rcases lget_mem_lset hr with h2 | h2
    · subst h2
      simpa [lset_length] using hrow row (mem_of_lget h)
    · exact hrow r h2

theorem mget_out {m : Mat} {n : Nat} (hs : Square m n) {i j : Nat}
    (h : n ≤ i ∨ n ≤ j) : mget m i j = none := by
  rcases hs with ⟨hlen, hrow⟩
  unfold mget
  rcases hri : lget m i with _ | row
  · rfl
  · rcases h with h | h
    · have := (lget_isSome_iff m i).mp (by simp [hri])
      omega
    · have hrl : row.length = n := hrow row (mem_of_lget hri)
      have : lget row j = none := (lget_eq_none_iff row j).mpr (by omega)
      simp [this]

theorem mget_mset_self {m : Mat} {n : Nat} (hs : Square m n) {i j : Nat}
    (hi : i < n) (hj : j < n) (v : EDist) : mget (mset m i j v) i j = v := by
  rcases hs with ⟨hlen, hrow⟩
  rcases hri : lget m i with _ | row
  · have := (lget_eq_none_iff m i).mp hri
    omega
  · have hrl : row.length = n := hrow row (mem_of_lget hri)
    have h1 : lget (lset m i (lset row j v)) i = some (lset row j v) :=
      lget_lset_self (by omega) _
    have h2 : lget (lset row j v) j = some v := lget_lset_self (by omega) _
    simp [mset, mget, hri, h1, h2]

theorem mget_mset_ne {m : Mat} {a b i j : Nat} (h : a ≠ i ∨ b ≠ j) (v : EDist) :
    mget (mset m a b v) i j = mget m i j := by
  rcases hra : lget m a with _ | row
  · simp [mset, hra]
  · by_cases hai : a = i
    · subst hai
      rcases h with h | h
      · exact absurd rfl h
      · have halen : a < m.length := (lget_isSome_iff m a).mp (by simp [hra])
        have h1 : lget (lset m a (lset row b v)) a = some (lset row b v) :=
          lget_lset_self halen _
        have h2 : lget (lset row b v) j = lget row j := lget_lset_ne row h _
        simp [mset, mget, hra, h1, h2]
    · have h1 : lget (lset m a (lset row b v)) i = lget m i := lget_lset_ne m hai _
      simp [mset, mget, hra, h1]

theorem Square_replicate (n : Nat) :
    Square (List.replicate n (List.replicate n (none : EDist))) n := by
  constructor
  · simp
  · intro r hr
    rw [List.eq_of_mem_replicate hr]
    simp

/-! Facts about the maximum over released pressures. -/

theorem omax_none_left (b : Option Nat) : omax none b = b := rfl

theorem omax_none_right (a : Option Nat) : omax a none = a := by
  cases a <;> rfl

theorem omax_assoc (a b c : Option Nat) : omax (omax a b) c = omax a (omax b c) := by
  cases a <;> cases b <;> cases c <;> simp [omax, Nat.max_assoc]

theorem maxN_cons (a : Nat) (l : List Nat) : maxN (a :: l) = omax (some a) (maxN l) := by
  rcases h : maxN l with _ | b <;> simp [maxN, h, omax]

theorem maxN_append (l1 l2 : List Nat) :
    maxN (l1 ++ l2) = omax (maxN l1) (maxN l2) := by
  induction l1 with
  | nil => simp [maxN, omax_none_left]
  | cons a l ih => simp [maxN_cons, ih, omax_assoc]

theorem foldl_omax_shift (l : List (Option Nat)) (a : Option Nat) :
    l.foldl omax a = omax a (l.foldl omax none) := by
  induction l generalizing a with
  | nil => simp [List.foldl, omax_none_right]
  | cons x l ih =>
    simp only [List.foldl]
    rw [ih (omax a x), ih (omax none x), omax_none_left, omax_assoc]

theorem maxN_flatMap {α : Type} (l : List α) (h : α → List Nat) :
    maxN (l.flatMap h) = (l.map (fun x => maxN (h x))).foldl omax none := by
  induction l with
  | nil => simp [maxN]
  | cons a l ih =>
    simp only [List.flatMap_cons, List.map_cons, List.foldl_cons]
    rw [maxN_append, ih,
      foldl_omax_shift (List.map (fun x => maxN (h x)) l) (omax none (maxN (h a))),
      omax_none_left]

theorem le_maxN {l : List Nat} {a : Nat} (h : a ∈ l) :
    ∃ m, maxN l = some m ∧ a ≤ m := by
  induction l with
  | nil => simp at h
  | cons x l ih =>
    rcases List.mem_cons.mp h with h | h
    · subst h
      rcases hm : maxN l with _ | b
      · exact ⟨a, by simp [maxN, hm], Nat.le_refl a⟩
      · exact ⟨max a b, by simp [maxN, hm], Nat.le_max_left a b⟩
    · rcases ih h with ⟨m, hm, ham⟩
      exact ⟨max x m, by simp [maxN, hm], Nat.le_trans ham (Nat.le_max_right x m)⟩

theorem maxN_mem {l : List Nat} {m : Nat} (h : maxN l = some m) : m ∈ l := by
  induction l generalizing m with
  | nil => simp [maxN] at h
  | cons x l ih =>
    rcases hm : maxN l with _ | b
    · simp [maxN, hm] at h
      simp [h]
    · simp [maxN, hm] at h
      rcases max_choice x b with he | he
      · rw [he] at h
        subst h
        exact List.mem_cons_self x l
      · rw [he] at h
        subst h
        exact List.mem_cons_of_mem _ (ih hm)

theorem maxN_isSome {l : List Nat} (h : l ≠ []) : (maxN l).isSome := by
  cases l with
  | nil => exact absurd rfl h
  | cons a l => simp [maxN]

/-- The maximum over the flat list of terminated tracks equals the maximum
computed along the expansion tree. -/
theorem maxN_collect (adj : Mat) (fuel : Nat) (t : Track) :
    maxN ((collectTerminated adj fuel t).map Track.released_pressure) =
      bestFrom adj fuel t := by
  induction fuel generalizing t with
  | zero => simp [collectTerminated, bestFrom, maxN]
  | succ f ih =>
    simp only [collectTerminated]
    rw [List.map_flatMap]
    rw [maxN_flatMap]
    unfold bestFrom
    congr 1
    apply List.map_congr_left
    intro nt _
    by_cases hr : 0 < nt.remaining_time
    · simp only [hr, if_true]
      exact ih nt
    · simp only [hr, if_false]
      simp [maxN]

/-- The adjacency initialization on the worked example graph. -/
theorem initAdj_example : initAdjacency exampleValves = some adjS0 := by decide

set_option maxRecDepth 2000 in
theorem floydR0_example : floydK 10 adjS0 0 = adjS1 := by decide

set_option maxRecDepth 2000 in
theorem floydR1_example : floydK 10 adjS1 1 = adjS2 := by decide

set_option maxRecDepth 2000 in
theorem floydR2_example : floydK 10 adjS2 2 = adjS3 := by decide

set_option maxRecDepth 2000 in
theorem floydR3_example : floydK 10 adjS3 3 = adjS4 := by decide

set_option maxRecDepth 2000 in
theorem floydR4_example : floydK 10 adjS4 4 = adjS5 := by decide

set_option maxRecDepth 2000 in
theorem floydR5_example : floydK 10 adjS5 5 = adjS6 := by decide

set_option maxRecDepth 2000 in
theorem floydR6_example : floydK 10 adjS6 6 = adjS7 := by decide

set_option maxRecDepth 2000 in
theorem floydR7_example : floydK 10 adjS7 7 = adjS8 := by decide

set_option maxRecDepth 2000 in
theorem floydR8_example : floydK 10 adjS8 8 = adjS9 := by decide

set_option maxRecDepth 2000 in
theorem floydR9_example : floydK 10 adjS9 9 = adjS10 := by decide

/-- The ten relaxation rounds chained on the worked example graph. -/
theorem floyd_example : floyd 10 adjS0 = adjS10 := by
  unfold floyd
  rw [show List.range 10 = [0, 1, 2, 3, 4, 5, 6, 7, 8, 9] from by decide]
  simp only [List.foldl_cons, List.foldl_nil, floydR0_example, floydR1_example,
    floydR2_example, floydR3_example, floydR4_example, floydR5_example, floydR6_example,
    floydR7_example, floydR8_example, floydR9_example]

/-- The full distance matrix of the worked example graph. -/
theorem build_example : build_adjacency_matrix exampleValves = some adjS10 := by
  unfold build_adjacency_matrix
  rw [initAdj_example, show exampleValves.length = 10 from rfl]
  simp only [Option.map, floyd_example]

/-- Remaining time of an explicitly spelled state reduces to its field. -/
theorem exTrack_rt (nms : List String) (cur : String) (rt : Int) (rp : Nat) (path : List String) :
    (exTrack nms cur rt rp path).remaining_time = rt := rfl

/-- The first expansion of the worked example: six candidate states, one per
positive-flow valve (`BB`, `CC`, `DD`, `EE`, `HH`, `JJ`). -/
theorem step_example :
    Track.step adjS10 (initTrack exampleValves 30) =
      [ exTrack ["BB"] "BB" 28 364 ["AA", "BB"]
      , exTrack ["CC"] "CC" 27 54 ["AA", "CC"]
      , exTrack ["DD"] "DD" 28 560 ["AA", "DD"]
      , exTrack ["EE"] "EE" 27 81 ["AA", "EE"]
      , exTrack ["HH"] "HH" 24 528 ["AA", "HH"]
      , exTrack ["JJ"] "JJ" 27 567 ["AA", "JJ"] ] := by decide

set_option maxRecDepth 2500 in
set_option maxHeartbeats 4000000 in
theorem bfBB_example :
    bestFrom adjS10 30 (exTrack ["BB"] "BB" 28 364 ["AA", "BB"]) = some 1647 := by decide

set_option maxRecDepth 2500 in
set_option maxHeartbeats 4000000 in
theorem bfCC_example :
    bestFrom adjS10 30 (exTrack ["CC"] "CC" 27 54 ["AA", "CC"]) = some 1456 := by decide

set_option maxRecDepth 2500 in
set_option maxHeartbeats 4000000 in
theorem bfDD_example :
    bestFrom adjS10 30 (exTrack ["DD"] "DD" 28 560 ["AA", "DD"]) = some 1651 := by decide

set_option maxRecDepth 2500 in
set_option maxHeartbeats 4000000 in
theorem bfEE_example :
    bestFrom adjS10 30 (exTrack ["EE"] "EE" 27 81 ["AA", "EE"]) = some 1473 := by decide

set_option maxRecDepth 2500 in
set_option maxHeartbeats 4000000 in
theorem bfHH_example :
    bestFrom adjS10 30 (exTrack ["HH"] "HH" 24 528 ["AA", "HH"]) = some 1402 := by decide

set_option maxRecDepth 2500 in
set_option maxHeartbeats 4000000 in
theorem bfJJ_example :
    bestFrom adjS10 30 (exTrack ["JJ"] "JJ" 27 567 ["AA", "JJ"]) = some 1645 := by decide

/-- The tree-shaped maximum of the worked example, assembled from the six
first-move subtrees. -/
theorem bestFrom_example :
    bestFrom adjS10 31 (initTrack exampleValves 30) = some 1651 := by
  show bestFrom adjS10 (30 + 1) (initTrack exampleValves 30) = some 1651
  rw [bestFrom, step_example]
  simp only [List.map_cons, List.map_nil, exTrack_rt,
    eq_true (show (0 : Int) < 28 from by decide),
    eq_true (show (0 : Int) < 27 from by decide),
    eq_true (show (0 : Int) < 24 from by decide), if_true]
  rw [bfBB_example, bfCC_example, bfDD_example, bfEE_example, bfHH_example, bfJJ_example]
  decide

/-- C1: on the canonical worked example graph (ten valves, start valve `AA`
with zero value), the single-agent search `solve_pt1` with the 30-unit time
budget returns the maximum cumulative value 1651. -/
theorem C1_example_value : solve_pt1 exampleValves = some 1651 := by
  unfold solve_pt1 searchBest
  rw [build_example]
  simp only [Option.bind]
  rw [maxN_collect]
  exact bestFrom_example

/-! Facts about name lookup in the valve list. -/

theorem valveId_eq_none_iff (vs : List Valve) (nm : String) :
    valveId vs nm = none ↔ nm ∉ vs.map Valve.name := by
  induction vs with
  | nil => simp [valveId]
  | cons v rest ih =>
    by_cases h : v.name = nm
    · simp [valveId, h]
    · simp only [valveId, h, if_false, List.map_cons, List.mem_cons]
      rcases hr : valveId rest nm with _ | i
      · simp only [hr, Option.map_none', true_iff]
        intro hc
        rcases hc with hc | hc
        · exact h hc.symm
        · exact (ih.mp hr) hc
      · simp only [hr, Option.map_some']
        constructor
        · intro hc
          exact absurd hc (by simp)
        · intro hc
          exfalso
          apply hc
          right
          by_contra hm
          rw [← ih] at hm
          simp [hm] at hr

theorem valveId_isSome_iff (vs : List Valve) (nm : String) :
    (valveId vs nm).isSome ↔ nm ∈ vs.map Valve.name := by
  rcases h : valveId vs nm with _ | i
  · simpa [h] using (valveId_eq_none_iff vs nm).mp h
  · simp only [Option.isSome_some, true_iff]
    by_contra hc
    rw [← valveId_eq_none_iff vs nm] at hc
    simp [hc] at h

theorem valveId_lget {vs : List Valve} {nm : String} {i : Nat}
    (h : valveId vs nm = some i) : ∃ v, lget vs i = some v ∧ v.name = nm := by
  induction vs generalizing i with
  | nil => simp [valveId] at h
  | cons v rest ih =>
    by_cases hn : v.name = nm
    · simp [valveId, hn] at h
      exact ⟨v, by simp [← h, lget], hn⟩
    · simp only [valveId, hn, if_false] at h
      rcases hr : valveId rest nm with _ | i0
      · simp [hr] at h
      · simp [hr] at h
        rcases ih hr with ⟨w, hw, hwn⟩
        exact ⟨w, by simp [← h, lget, hw], hwn⟩

theorem valveId_lt_length {vs : List Valve} {nm : String} {i : Nat}
    (h : valveId vs nm = some i) : i < vs.length := by
  rcases valveId_lget h with ⟨v, hv, _⟩
  exact (lget_isSome_iff vs i).mp (by simp [hv])

theorem getValve_mem {vs : List Valve} {nm : String} {v : Valve}
    (h : getValve vs nm = some v) : v ∈ vs := by
  induction vs with
  | nil => simp [getValve] at h
  | cons w rest ih =>
    by_cases hn : w.name = nm
    · simp [getValve, hn] at h
      simp [← h]
    · simp only [getValve, hn, if_false] at h
      exact List.mem_cons_of_mem _ (ih h)

theorem getValve_of_lget_nodup {vs : List Valve} {j : Nat} {v : Valve}
    (hnd : (vs.map Valve.name).Nodup) (h : lget vs j = some v) :
    getValve vs v.name = some v := by
  induction vs generalizing j with
  | nil => simp [lget] at h
  | cons w rest ih =>
    cases j with
    | zero =>
      simp [lget] at h
      simp [getValve, h]
    | succ n =>
      simp only [lget] at h
      have hvmem : v.name ∈ rest.map Valve.name :=
        List.mem_map_of_mem Valve.name (mem_of_lget h)
      have hw : w.name ≠ v.name := by
        simp only [List.map_cons, List.nodup_cons] at hnd
        intro hc
        exact hnd.1 (hc ▸ hvmem)
      simp only [getValve, hw, if_false]
      exact ih (by simp only [List.map_cons, List.nodup_cons] at hnd; exact hnd.2) h

theorem flowAt_of_lget_nodup {vs : List Valve} {j : Nat} {v : Valve}
    (hnd : (vs.map Valve.name).Nodup) (h : lget vs j = some v) :
    flowAt vs j = v.flow_rate := by
  simp [flowAt, nameAt, h, getValve_of_lget_nodup hnd h]

theorem openAt_of_lget_nodup {vs : List Valve} {j : Nat} {v : Valve}
    (hnd : (vs.map Valve.name).Nodup) (h : lget vs j = some v) :
    openAt vs j = v.opened := by
  simp [openAt, nameAt, h, getValve_of_lget_nodup hnd h]

theorem valveId_of_lget_nodup {vs : List Valve} {j : Nat} {v : Valve}
    (hnd : (vs.map Valve.name).Nodup) (h : lget vs j = some v) :
    valveId vs v.name = some j := by
  induction vs generalizing j with
  | nil => simp [lget] at h
  | cons w rest ih =>
    cases j with
    | zero =>
      simp [lget] at h
      simp [valveId, h]
    | succ n =>
      simp only [lget] at h
      have hvmem : v.name ∈ rest.map Valve.name :=
        List.mem_map_of_mem Valve.name (mem_of_lget h)
      have hw : w.name ≠ v.name := by
        simp only [List.map_cons, List.nodup_cons] at hnd
        intro hc
        exact hnd.1 (hc ▸ hvmem)
      simp only [valveId, hw, if_false]
      rw [ih (by simp only [List.map_cons, List.nodup_cons] at hnd; exact hnd.2) h]
      rfl

theorem names_openValve (vs : List Valve) (nm : String) :
    (openValve vs nm).map Valve.name = vs.map Valve.name := by
  induction vs with
  | nil => rfl
  | cons v rest ih =>
    simp only [openValve, List.map_cons] at *
    by_cases h : v.name = nm <;> simp [h, ih]

/-! The expansion rule of `Track::step`. -/

/-- The filter `release > 0` of the source in terms of its three factors. -/
theorem release_pos_iff (time : Int) (fl : Nat) (op : Bool) :
    (0 < time * (fl : Int) * (if op then 0 else 1)) ↔
      (op = false ∧ 0 < fl ∧ 0 < time) := by
  cases op
  · simp only [if_neg Bool.false_ne_true, mul_one, true_and]
    constructor
    · intro h
      rcases mul_pos_iff.mp h with ⟨ht, hf⟩ | ⟨_, hf⟩
      · exact ⟨Int.natCast_pos.mp hf, ht⟩
      · exact absurd hf (not_lt.mpr (Int.natCast_nonneg fl))
    · rintro ⟨hf, ht⟩
      exact mul_pos ht (Int.natCast_pos.mpr hf)
  · simp

theorem mem_candidates_iff {adj : Mat} {t : Track} {curId : Nat} {c : Track} :
    c ∈ Track.candidates adj t curId ↔
      ∃ j v d, lget t.valves j = some v ∧ mget adj curId j = some d ∧
        openAt t.valves j = false ∧ 0 < flowAt t.valves j ∧
        0 < t.remaining_time - (d : Int) - 1 ∧ c = mkCand t j v d := by
  unfold Track.candidates
  rw [List.mem_filterMap]
  constructor
  · rintro ⟨j, hj, hf⟩
    rcases hv : lget t.valves j with _ | v
    · simp [hv] at hf
    · rcases hd : mget adj curId j with _ | d
      · simp [hv, hd] at hf
      · simp only [hv, hd] at hf
        by_cases hrel : 0 < (t.remaining_time - (d : Int) - 1) * (flowAt t.valves j : Int) *
            (if openAt t.valves j then 0 else 1)
        · rw [if_pos hrel] at hf
          rcases (release_pos_iff _ _ _).mp hrel with ⟨hop, hfl, ht⟩
          exact ⟨j, v, d, hv, hd, hop, hfl, ht, by simpa using hf.symm⟩
        · rw [if_neg hrel] at hf
          simp at hf
  · rintro ⟨j, v, d, hv, hd, hop, hfl, ht, hc⟩
    refine ⟨j, List.mem_range.mpr ((lget_isSome_iff t.valves j).mp (by simp [hv])), ?_⟩
    simp only [hv, hd]
    rw [if_pos ((release_pos_iff _ _ _).mpr ⟨hop, hfl, ht⟩)]
    simp [hc]

/-- Every candidate has strictly positive remaining time, strictly less than
the parent's. -/
theorem cand_remaining {adj : Mat} {t : Track} {curId : Nat} {c : Track}
    (h : c ∈ Track.candidates adj t curId) :
    0 < c.remaining_time ∧ c.remaining_time ≤ t.remaining_time - 1 := by
  rcases mem_candidates_iff.mp h with ⟨j, v, d, _, _, _, _, ht, hc⟩
  subst hc
  unfold mkCand
  constructor
  · exact ht
  · simp only []
    omega

/-- Every candidate has at least the parent's released pressure. -/
theorem cand_released {adj : Mat} {t : Track} {curId : Nat} {c : Track}
    (h : c ∈ Track.candidates adj t curId) :
    t.released_pressure ≤ c.released_pressure := by
  rcases mem_candidates_iff.mp h with ⟨j, v, d, _, _, _, _, _, hc⟩
  subst hc
  unfold mkCand
  simp

/-- Every candidate's current valve resolves in its own valve list. -/
theorem cand_current_resolves {adj : Mat} {t : Track} {curId : Nat} {c : Track}
    (h : c ∈ Track.candidates adj t curId) :
    (valveId c.valves c.current_valve).isSome := by
  rcases mem_candidates_iff.mp h with ⟨j, v, d, hv, _, _, _, _, hc⟩
  subst hc
  unfold mkCand
  simp only []
  rw [valveId_isSome_iff, names_openValve]
  exact List.mem_map_of_mem Valve.name (mem_of_lget hv)

/-- The method `Track::step` never returns an empty vector when the current valve
resolves (either some candidate exists or the terminated copy is returned). -/
theorem step_ne_nil {adj : Mat} {t : Track}
    (h : (valveId t.valves t.current_valve).isSome) :
    Track.step adj t ≠ [] := by
  rcases ho : valveId t.valves t.current_valve with _ | curId
  · simp [ho] at h
  · unfold Track.step
    rw [ho]
    simp only []
    split
    · simp
    · rename_i hne
      simpa using hne

/-- Case analysis on a member of `Track::step`. -/
theorem mem_step {adj : Mat} {t nt : Track} {curId : Nat}
    (hid : valveId t.valves t.current_valve = some curId)
    (h : nt ∈ Track.step adj t) :
    nt ∈ Track.candidates adj t curId ∨
      (Track.candidates adj t curId = [] ∧ nt = { t with remaining_time := 0 }) := by
  unfold Track.step at h
  rw [hid] at h
  simp only [] at h
  split at h
  · rename_i he
    right
    exact ⟨List.isEmpty_iff.mp (by simpa using he), by simpa using h⟩
  · left
    exact h

/-! Facts about the worklist collection. -/

theorem step_preserves_resolve {adj : Mat} {t nt : Track}
    (hw : (valveId t.valves t.current_valve).isSome)
    (h : nt ∈ Track.step adj t) :
    (valveId nt.valves nt.current_valve).isSome := by
  rcases ho : valveId t.valves t.current_valve with _ | curId
  · simp [ho] at hw
  · rcases mem_step ho h with hc | ⟨_, hnt⟩
    · exact cand_current_resolves hc
    · subst hnt
      simpa using hw

theorem fallback_not_pos {t nt : Track} (h : nt = { t with remaining_time := 0 }) :
    ¬ 0 < nt.remaining_time := by
  subst h
  simp

/-- Every successor with positive remaining time is a candidate. -/
theorem mem_step_pos {adj : Mat} {t nt : Track} {curId : Nat}
    (hid : valveId t.valves t.current_valve = some curId)
    (h : nt ∈ Track.step adj t) (hpos : 0 < nt.remaining_time) :
    nt ∈ Track.candidates adj t curId := by
  rcases mem_step hid h with hc | ⟨_, hnt⟩
  · exact hc
  · exact absurd hpos (fallback_not_pos hnt)

/-- Gains are non-negative along the search: every collected terminated track
has at least the released pressure of the state it came from. -/
theorem collect_released_ge {adj : Mat} (fuel : Nat) (t : Track) :
    ∀ x ∈ collectTerminated adj fuel t, t.released_pressure ≤ x.released_pressure := by
  induction fuel generalizing t with
  | zero => simp [collectTerminated]
  | succ f ih =>
    intro x hx
    simp only [collectTerminated] at hx
    rw [List.mem_flatMap] at hx
    rcases hx with ⟨nt, hnt, hx⟩
    have hrel : t.released_pressure ≤ nt.released_pressure := by
      rcases ho : valveId t.valves t.current_valve with _ | curId
      · unfold Track.step at hnt
        rw [ho] at hnt
        simp at hnt
      · rcases mem_step ho hnt with hc | ⟨_, he⟩
        · exact cand_released hc
        · subst he
          exact Nat.le_refl _
    by_cases hr : 0 < nt.remaining_time
    · rw [if_pos hr] at hx
      exact Nat.le_trans hrel (ih nt x hx)
    · rw [if_neg hr] at hx
      simp at hx
      subst hx
      exact hrel

/-- With enough fuel and a resolvable current valve, the collection of
terminated tracks is never empty. -/
theorem collect_ne_nil {adj : Mat} {fuel : Nat} {t : Track}
    (hw : (valveId t.valves t.current_valve).isSome)
    (hfuel : t.remaining_time.toNat < fuel) :
    collectTerminated adj fuel t ≠ [] := by
  induction fuel generalizing t with
  | zero => omega
  | succ f ih =>
    simp only [collectTerminated]
    rcases hs : Track.step adj t with _ | ⟨nt, rest⟩
    · exact absurd hs (step_ne_nil hw)
    · simp only [List.flatMap_cons]
      intro hcontra
      rcases List.append_eq_nil.mp hcontra with ⟨h1, _⟩
      have hnt : nt ∈ Track.step adj t := by
        rw [hs]
        exact List.mem_cons_self _ _
      by_cases hr : 0 < nt.remaining_time
      · rw [if_pos hr] at h1
        rcases ho : valveId t.valves t.current_valve with _ | curId
        · simp [ho] at hw
        · have hc := mem_step_pos ho hnt hr
          rcases cand_remaining hc with ⟨hp, hle⟩
          have : nt.remaining_time.toNat < f := by omega
          exact ih (step_preserves_resolve hw hnt) this h1
      · rw [if_neg hr] at h1
        simp at h1

/-- The maximum over terminated tracks equals the maximum over every explored
state (terminal or not): each explored state extends to a terminated one of at
least its value, since gains are non-negative. -/
theorem collect_eq_explored {adj : Mat} (fuel : Nat) (t : Track)
    (hw : (valveId t.valves t.current_valve).isSome)
    (hfuel : t.remaining_time.toNat < fuel) :
    maxN ((collectTerminated adj fuel t).map Track.released_pressure) =
      maxN ((collectExplored adj fuel t).map Track.released_pressure) := by
  induction fuel generalizing t with
  | zero => omega
  | succ f ih =>
    simp only [collectTerminated, collectExplored, List.map_cons, maxN_cons]
    have hcongr :
        maxN (((Track.step adj t).flatMap
            (fun nt => if 0 < nt.remaining_time then collectExplored adj f nt else [nt])).map
          Track.released_pressure) =
        maxN (((Track.step adj t).flatMap
            (fun nt => if 0 < nt.remaining_time then collectTerminated adj f nt else [nt])).map
          Track.released_pressure) := by
      rw [List.map_flatMap, List.map_flatMap, maxN_flatMap, maxN_flatMap]
      congr 1
      apply List.map_congr_left
      intro nt hnt
      by_cases hr : 0 < nt.remaining_time
      · rw [if_pos hr, if_pos hr]
        rcases ho : valveId t.valves t.current_valve with _ | curId
        · simp [ho] at hw
        · have hc := mem_step_pos ho hnt hr
          rcases cand_remaining hc with ⟨hp, hle⟩
          exact (ih nt (step_preserves_resolve hw hnt) (by omega)).symm
      · rw [if_neg hr, if_neg hr]
    rw [hcongr]
    -- the root's own value never exceeds the terminated maximum
    rcases hs : collectTerminated adj (f + 1) t with _ | ⟨x, xs⟩
    · exact absurd hs (collect_ne_nil hw hfuel)
    · have hx : x ∈ collectTerminated adj (f + 1) t := by
        rw [hs]
        exact List.mem_cons_self _ _
      have hxrel : t.released_pressure ≤ x.released_pressure :=
        collect_released_ge (f + 1) t x hx
      have hxm : x.released_pressure ∈ (collectTerminated adj (f + 1) t).map
          Track.released_pressure := List.mem_map_of_mem _ hx
      rcases le_maxN hxm with ⟨m, hm, hxle⟩
      have hterm : maxN ((collectTerminated adj (f + 1) t).map Track.released_pressure) =
          some m := hm
      simp only [collectTerminated] at hterm
      rw [hterm, omax]
      have : max t.released_pressure m = m := Nat.max_eq_right (Nat.le_trans hxrel hxle)
      rw [this]

/-- Rewriting the gain: `(time * flow * 1).toNat = flow * time.toNat` for a positive time. -/
theorem release_toNat {time : Int} (fl : Nat) (ht : 0 < time) :
    (time * (fl : Int) * 1).toNat = fl * time.toNat := by
  obtain ⟨n, rfl⟩ := Int.eq_ofNat_of_zero_le (Int.le_of_lt ht)
  rw [mul_one, ← Int.natCast_mul, Int.toNat_natCast, Int.toNat_natCast, Nat.mul_comm]

/-- C2: from any state, the candidate successors are exactly the valves `j`
that are not yet opened, have strictly positive activation value, and satisfy
`remaining_time - dist[current][j] - 1 > 0`; the successor for such a `j` has
the new remaining time `remaining_time - dist[current][j] - 1`, gains
`node_value[j] * new_remaining_time`, marks `j` opened, moves there, and adds
the gain to the cumulative value. -/
theorem C2_expansion_exact (adj : Mat) (t : Track) (curId : Nat) (c : Track)
    (hnd : (t.valves.map Valve.name).Nodup)
    (hid : valveId t.valves t.current_valve = some curId) :
    c ∈ Track.candidates adj t curId ↔
      ∃ j v d, lget t.valves j = some v ∧ mget adj curId j = some d ∧
        v.opened = false ∧ 0 < v.flow_rate ∧
        0 < t.remaining_time - (d : Int) - 1 ∧
        c = { valves := openValve t.valves v.name
            , current_valve := v.name
            , remaining_time := t.remaining_time - (d : Int) - 1
            , released_pressure := t.released_pressure +
                v.flow_rate * (t.remaining_time - (d : Int) - 1).toNat
            , path := t.path ++ [v.name] } := by
  rw [mem_candidates_iff]
  constructor
  · rintro ⟨j, v, d, hv, hd, hop, hfl, ht, hc⟩
    have hoA : v.opened = false := by
      rw [← openAt_of_lget_nodup hnd hv]
      exact hop
    have hfA : flowAt t.valves j = v.flow_rate := flowAt_of_lget_nodup hnd hv
    refine ⟨j, v, d, hv, hd, hoA, by omega, ht, ?_⟩
    subst hc
    simp only [mkCand, hop, hfA, Bool.false_eq_true, if_false, Track.mk.injEq,
      true_and, and_true]
    rw [release_toNat v.flow_rate ht]
  · rintro ⟨j, v, d, hv, hd, hop, hfl, ht, hc⟩
    have hoA : openAt t.valves j = false := by
      rw [openAt_of_lget_nodup hnd hv]
      exact hop
    have hfA : flowAt t.valves j = v.flow_rate := flowAt_of_lget_nodup hnd hv
    refine ⟨j, v, d, hv, hd, hoA, by omega, ht, ?_⟩
    subst hc
    simp only [mkCand, hoA, hfA, Bool.false_eq_true, if_false, Track.mk.injEq,
      true_and, and_true]
    rw [release_toNat v.flow_rate ht]

/-- C3: the value `solve_pt1` returns — the maximum over terminated tracks
only — equals the maximum cumulative value over every explored state. -/
theorem C3_terminated_equals_explored (vs : List Valve) (adj : Mat)
    (hb : build_adjacency_matrix vs = some adj)
    (haa : (valveId vs "AA").isSome) :
    solve_pt1 vs =
      maxN ((collectExplored adj ((30 : Int).toNat + 1) (initTrack vs 30)).map
        Track.released_pressure) := by
  unfold solve_pt1 searchBest
  rw [hb, Option.some_bind]
  exact collect_eq_explored _ _ haa (by simp only [initTrack]; omega)

/-! Success and failure of the adjacency initialization. -/

theorem mem_of_mem_enumFrom {α : Type} {l : List α} :
    ∀ {n : Nat} {p : Nat × α}, p ∈ l.enumFrom n → p.2 ∈ l := by
  induction l with
  | nil =>
    intro n p h
    simp [List.enumFrom] at h
  | cons a l ih =>
    intro n p h
    simp only [List.enumFrom] at h
    rcases List.mem_cons.mp h with h | h
    · subst h
      exact List.mem_cons_self _ _
    · exact List.mem_cons_of_mem _ (ih h)

theorem setEdges_isSome {vs : List Valve} {i : Nat} {dests : List String}
    (h : ∀ d ∈ dests, (valveId vs d).isSome) (m : Mat) :
    (setEdges vs i dests m).isSome := by
  induction dests generalizing m with
  | nil => simp [setEdges, List.foldlM]
  | cons d ds ih =>
    unfold setEdges at ih ⊢
    simp only [List.foldlM_cons]
    rcases ho : valveId vs d with _ | j
    · have := h d (List.mem_cons_self _ _)
      simp [ho] at this
    · simp only [ho, Option.map_some', Option.some_bind]
      exact ih (fun x hx => h x (List.mem_cons_of_mem _ hx)) _

theorem setEdges_eq_none {vs : List Valve} {i : Nat} {dests : List String}
    (h : ∃ d ∈ dests, valveId vs d = none) (m : Mat) :
    setEdges vs i dests m = none := by
  induction dests generalizing m with
  | nil => simp at h
  | cons d ds ih =>
    unfold setEdges at ih ⊢
    simp only [List.foldlM_cons]
    rcases ho : valveId vs d with _ | j
    · simp [ho]
    · simp only [ho, Option.map_some', Option.some_bind]
      rcases h with ⟨x, hx, hxn⟩
      rcases List.mem_cons.mp hx with hx | hx
      · subst hx
        simp [hxn] at ho
      · exact ih ⟨x, hx, hxn⟩ _

theorem initAdjacency_isSome {vs : List Valve}
    (h : ∀ v ∈ vs, ∀ d ∈ v.destinations, (valveId vs d).isSome) :
    (initAdjacency vs).isSome := by
  unfold initAdjacency
  have key : ∀ (l : List (Nat × Valve)), (∀ p ∈ l, p.2 ∈ vs) → ∀ m : Mat,
      ((l.foldlM (fun acc p =>
        setEdges vs p.1 p.2.destinations (mset acc p.1 p.1 (some 0))) m)).isSome := by
    intro l
    induction l with
    | nil =>
      intro _ m
      simp [List.foldlM]
    | cons p ps ih =>
      intro hmem m
      simp only [List.foldlM_cons]
      have hp : p.2 ∈ vs := hmem p (List.mem_cons_self _ _)
      rcases hs : setEdges vs p.1 p.2.destinations (mset m p.1 p.1 (some 0)) with _ | m2
      · have := setEdges_isSome (i := p.1) (fun d hd => h p.2 hp d hd)
          (mset m p.1 p.1 (some 0))
        rw [hs] at this
        simp at this
      · exact ih (fun q hq => hmem q (List.mem_cons_of_mem _ hq)) m2
  exact key vs.enum (fun p hp => mem_of_mem_enumFrom hp) _

theorem exists_enumFrom_of_mem {α : Type} {l : List α} {v : α} (h : v ∈ l) :
    ∀ n, ∃ p ∈ l.enumFrom n, p.2 = v := by
  induction l with
  | nil => simp at h
  | cons a l ih =>
    intro n
    rcases List.mem_cons.mp h with h | h
    · exact ⟨(n, a), List.mem_cons_self _ _, h.symm⟩
    · rcases ih h (n + 1) with ⟨p, hp, hpv⟩
      exact ⟨p, List.mem_cons_of_mem _ hp, hpv⟩

theorem initAdjacency_eq_none {vs : List Valve}
    (h : ∃ v ∈ vs, ∃ d ∈ v.destinations, valveId vs d = none) :
    initAdjacency vs = none := by
  unfold initAdjacency
  have key : ∀ (l : List (Nat × Valve)), (∃ p ∈ l, ∃ d ∈ p.2.destinations,
      valveId vs d = none) → ∀ m : Mat,
      (l.foldlM (fun acc p =>
        setEdges vs p.1 p.2.destinations (mset acc p.1 p.1 (some 0))) m) = none := by
    intro l
    induction l with
    | nil =>
      intro hc _
      simp at hc
    | cons p ps ih =>
      intro hc m
      simp only [List.foldlM_cons]
      rcases hs : setEdges vs p.1 p.2.destinations (mset m p.1 p.1 (some 0)) with _ | m2
      · rfl
      · rcases hc with ⟨q, hq, d, hd, hdn⟩
        rcases List.mem_cons.mp hq with hq | hq
        · subst hq
          rw [setEdges_eq_none ⟨d, hd, hdn⟩] at hs
          exact absurd hs (by simp)
        · show (some m2 >>= fun b =>
            List.foldlM (fun acc p =>
              setEdges vs p.1 p.2.destinations (mset acc p.1 p.1 (some 0))) b ps) = none
          exact ih ⟨q, hq, d, hd, hdn⟩ m2
  rcases h with ⟨v, hv, d, hd, hdn⟩
  have hvp : ∃ p ∈ vs.enum, p.2 = v := by
    rw [List.enum]
    exact exists_enumFrom_of_mem hv 0
  rcases hvp with ⟨p, hp, hpv⟩
  exact key vs.enum ⟨p, hp, d, by rw [hpv]; exact hd, hdn⟩ _

/-- C10: with the start valve present and every neighbor name resolving,
`Track::step` never returns an empty vector and `solve_pt1` ends in `Ok`
(no `unwrap` panics: the final maximum exists). -/
theorem C10_search_safe (vs : List Valve)
    (haa : "AA" ∈ vs.map Valve.name)
    (hres : ∀ v ∈ vs, ∀ d ∈ v.destinations, d ∈ vs.map Valve.name) :
    (∀ (adj : Mat) (t : Track), (valveId t.valves t.current_valve).isSome →
        Track.step adj t ≠ []) ∧
      (solve_pt1 vs).isSome := by
  constructor
  · intro adj t hw
    exact step_ne_nil hw
  · have hinit : (initAdjacency vs).isSome := initAdjacency_isSome (fun v hv d hd =>
      (valveId_isSome_iff vs d).mpr (hres v hv d hd))
    rcases ho : initAdjacency vs with _ | m0
    · rw [ho] at hinit
      simp at hinit
    · unfold solve_pt1 searchBest build_adjacency_matrix
      rw [ho, Option.map_some', Option.some_bind]
      have hne : collectTerminated (floyd vs.length m0) ((30 : Int).toNat + 1)
          (initTrack vs 30) ≠ [] :=
        collect_ne_nil ((valveId_isSome_iff vs "AA").mpr haa)
          (by simp only [initTrack]; omega)
      have hmapne : (collectTerminated (floyd vs.length m0) ((30 : Int).toNat + 1)
          (initTrack vs 30)).map Track.released_pressure ≠ [] := by
        intro hc
        exact hne (List.map_eq_nil.mp hc)
      exact maxN_isSome hmapne

/-- C10 witness at a concrete graph. -/
theorem C10_search_safe_witness :
    ("AA" ∈ wValves.map Valve.name ∧
      ∀ v ∈ wValves, ∀ d ∈ v.destinations, d ∈ wValves.map Valve.name) ∧
      (solve_pt1 wValves).isSome :=
  ⟨⟨by decide, by decide⟩,
    (C10_search_safe wValves (by decide) (by decide)).2⟩

/-- C2 witness: on the concrete two-valve graph, the candidate the rule
describes for `j = 1` is generated from the initial state. -/
theorem C2_expansion_exact_witness :
    { valves := openValve (initTrack wValves 30).valves "BB"
    , current_valve := "BB"
    , remaining_time := (28 : Int)
    , released_pressure := 140
    , path := ["AA", "BB"] } ∈
      Track.candidates wAdj (initTrack wValves 30) 0 :=
  (C2_expansion_exact wAdj (initTrack wValves 30) 0 _ (by decide) (by decide)).mpr
    ⟨1, { name := "BB", flow_rate := 5, destinations := ["AA"], opened := false },
      1, by decide, by decide, by decide, by decide, by decide, by decide⟩

/-- C3 witness at a concrete graph. -/
theorem C3_terminated_equals_explored_witness :
    build_adjacency_matrix wValves = some wAdj ∧
      (valveId wValves "AA").isSome ∧
      solve_pt1 wValves =
        maxN ((collectExplored wAdj ((30 : Int).toNat + 1) (initTrack wValves 30)).map
          Track.released_pressure) :=
  ⟨by decide, by decide,
    C3_terminated_equals_explored wValves wAdj (by decide) (by decide)⟩

/-- C8 (amended): an unresolved neighbor name makes the computation fail
fatally; the failure occurs during the adjacency initialization inside
`build_adjacency_matrix` (the dense index itself is built without failure),
and no distance matrix is produced, so the Floyd–Warshall relaxation never
runs. -/
theorem C8_unresolved_neighbor (vs : List Valve)
    (h : ∃ v ∈ vs, ∃ d ∈ v.destinations, d ∉ vs.map Valve.name) :
    initAdjacency vs = none ∧ build_adjacency_matrix vs = none := by
  have h2 : ∃ v ∈ vs, ∃ d ∈ v.destinations, valveId vs d = none := by
    rcases h with ⟨v, hv, d, hd, hdn⟩
    exact ⟨v, hv, d, hd, (valveId_eq_none_iff vs d).mpr hdn⟩
  have hi := initAdjacency_eq_none h2
  refine ⟨hi, ?_⟩
  unfold build_adjacency_matrix
  rw [hi]
  rfl

/-- C8 counterexample to the claimed failure phase: on a concrete bad input
the dense-index maps are total and fully defined (`valve_to_id`/`id_to_valve`
resolve the one existing valve), yet the failure happens inside
`build_adjacency_matrix` during adjacency initialization — not before the
Distance Matrix Builder runs. -/
theorem C8_unresolved_neighbor_counterexample :
    valveId c8Valves "AA" = some 0 ∧ nameAt c8Valves 0 = some "AA" ∧
      valveId c8Valves "ZZ" = none ∧
      initAdjacency c8Valves = none ∧ build_adjacency_matrix c8Valves = none :=
  ⟨by decide, by decide, by decide, by decide, by decide⟩

/-- C8 witness for the amended statement. -/
theorem C8_unresolved_neighbor_witness :
    initAdjacency c8Valves = none ∧ build_adjacency_matrix c8Valves = none :=
  C8_unresolved_neighbor c8Valves (by decide)

/-! The degenerate graph: no valve has a positive activation value. -/

theorem flowAt_degenerate {vs : List Valve} (hf : ∀ v ∈ vs, v.flow_rate = 0) (j : Nat) :
    flowAt vs j = 0 := by
  unfold flowAt
  rcases hn : nameAt vs j with _ | nm
  · rfl
  · show (match getValve vs nm with | none => 0 | some v => v.flow_rate) = 0
    rcases hg : getValve vs nm with _ | v
    · rfl
    · exact hf v (getValve_mem hg)

theorem candidates_degenerate {adj : Mat} {t : Track} {curId : Nat}
    (hf : ∀ v ∈ t.valves, v.flow_rate = 0) :
    Track.candidates adj t curId = [] := by
  rw [List.eq_nil_iff_forall_not_mem]
  intro c hc
  rcases mem_candidates_iff.mp hc with ⟨j, v, d, hv, _, _, hfl, _, _⟩
  rw [flowAt_degenerate hf j] at hfl
  exact absurd hfl (by omega)

theorem step_degenerate {adj : Mat} {t : Track} {curId : Nat}
    (hid : valveId t.valves t.current_valve = some curId)
    (hf : ∀ v ∈ t.valves, v.flow_rate = 0) :
    Track.step adj t = [{ t with remaining_time := 0 }] := by
  unfold Track.step
  rw [hid]
  simp only [candidates_degenerate hf, List.isEmpty_nil, if_true]

theorem collect_degenerate {adj : Mat} {t : Track} {curId : Nat} (f : Nat)
    (hid : valveId t.valves t.current_valve = some curId)
    (hf : ∀ v ∈ t.valves, v.flow_rate = 0) :
    collectTerminated adj (f + 1) t = [{ t with remaining_time := 0 }] := by
  simp only [collectTerminated]
  rw [step_degenerate hid hf]
  simp

theorem explored_degenerate {adj : Mat} {t : Track} {curId : Nat} (f : Nat)
    (hid : valveId t.valves t.current_valve = some curId)
    (hf : ∀ v ∈ t.valves, v.flow_rate = 0) :
    collectExplored adj (f + 1) t = [t, { t with remaining_time := 0 }] := by
  simp only [collectExplored]
  rw [step_degenerate hid hf]
  simp

/-! The Dual-Agent Combiner fold. -/

theorem combineStep_mono (acc : Nat) (ab : (Nat × Nat) × (Nat × Nat)) :
    acc ≤ combineStep acc ab := by
  unfold combineStep
  split
  · exact Nat.le_max_left _ _
  · exact Nat.le_refl _

theorem foldl_combineStep_mono (L : List ((Nat × Nat) × (Nat × Nat))) (acc : Nat) :
    acc ≤ L.foldl combineStep acc := by
  induction L generalizing acc with
  | nil => exact Nat.le_refl _
  | cons ab L ih =>
    simp only [List.foldl_cons]
    exact Nat.le_trans (combineStep_mono acc ab) (ih _)

theorem foldl_combineStep_ge {L : List ((Nat × Nat) × (Nat × Nat))}
    (ab : (Nat × Nat) × (Nat × Nat)) (hm : ab ∈ L) (hd : ab.1.1 &&& ab.2.1 = 0)
    (acc : Nat) : ab.1.2 + ab.2.2 ≤ L.foldl combineStep acc := by
  induction L generalizing acc with
  | nil => simp at hm
  | cons x L ih =>
    simp only [List.foldl_cons]
    rcases List.mem_cons.mp hm with hm | hm
    · subst hm
      refine Nat.le_trans ?_ (foldl_combineStep_mono L _)
      unfold combineStep
      rw [if_pos (by simpa using hd)]
      exact Nat.le_max_right _ _
    · exact ih hm _

theorem foldl_combineStep_attained (L : List ((Nat × Nat) × (Nat × Nat))) (acc : Nat) :
    L.foldl combineStep acc = acc ∨
      ∃ ab ∈ L, ab.1.1 &&& ab.2.1 = 0 ∧ L.foldl combineStep acc = ab.1.2 + ab.2.2 := by
  induction L generalizing acc with
  | nil => exact Or.inl rfl
  | cons x L ih =>
    simp only [List.foldl_cons]
    rcases ih (combineStep acc x) with h | h
    · rw [h]
      unfold combineStep
      split
      · rename_i hx
        rcases max_choice acc (x.1.2 + x.2.2) with hmax | hmax
        · exact Or.inl hmax
        · exact Or.inr ⟨x, List.mem_cons_self _ _, by simpa using hx, hmax⟩
      · exact Or.inl rfl
    · rcases h with ⟨ab, hab, hdj, he⟩
      exact Or.inr ⟨ab, List.mem_cons_of_mem _ hab, hdj, he⟩

/-! Masks and the Best-Per-Mask Table. -/

theorem maskOf_closed {vs : List Valve} (h : ∀ v ∈ vs, v.opened = false) :
    maskOf vs = 0 := by
  unfold maskOf
  have key : ∀ (l : List (Nat × Valve)) (acc : Nat), (∀ p ∈ l, p.2.opened = false) →
      l.foldl (fun acc p => if p.2.opened then acc + 2 ^ p.1 else acc) acc = acc := by
    intro l
    induction l with
    | nil => intro acc _; rfl
    | cons p ps ih =>
      intro acc hp
      simp only [List.foldl_cons, hp p (List.mem_cons_self _ _), Bool.false_eq_true,
        if_false]
      exact ih acc (fun q hq => hp q (List.mem_cons_of_mem _ hq))
  exact key vs.enum 0 (fun p hp => h p.2 (mem_of_mem_enumFrom hp))

theorem bestPerMask_mem_of_state {states : List Track} {t : Track} (h : t ∈ states) :
    ∃ val, (maskOf t.valves, val) ∈ bestPerMask states := by
  unfold bestPerMask
  have hm : maskOf t.valves ∈ (states.map (fun t => maskOf t.valves)).dedup :=
    List.mem_dedup.mpr (List.mem_map_of_mem _ h)
  exact ⟨_, List.mem_map_of_mem _ hm⟩

theorem bestPerMask_pair_same (t0 fb : Track) (hv : fb.valves = t0.valves)
    (h0 : t0.released_pressure = 0) (h1 : fb.released_pressure = 0) :
    bestPerMask [t0, fb] = [(maskOf t0.valves, 0)] := by
  unfold bestPerMask
  simp only [List.map_cons, List.map_nil, hv]
  rw [List.dedup_cons_of_mem (by simp), List.dedup_cons_of_not_mem (by simp),
    List.dedup_nil]
  simp only [List.map_cons, List.map_nil, List.filter_cons, List.filter_nil, hv,
    beq_self_eq_true, if_true, h0, h1]
  simp [maxN]

theorem dualCombine_single_zero (m : Nat) : dualCombine [(m, 0)] = 0 := by
  unfold dualCombine combineStep
  simp only [List.flatMap_cons, List.map_cons, List.map_nil, List.flatMap_nil,
    List.append_nil, List.foldl_cons, List.foldl_nil]
  split <;> rfl

/-- C9 (amended): a degenerate graph that contains the start valve and whose
neighbor names resolve is not an error: the single-agent result and the
(spec-modelled) dual-agent result are both zero. -/
theorem C9_degenerate_zero (vs : List Valve) (budget : Int)
    (haa : "AA" ∈ vs.map Valve.name)
    (hres : ∀ v ∈ vs, ∀ d ∈ v.destinations, d ∈ vs.map Valve.name)
    (hf : ∀ v ∈ vs, v.flow_rate = 0) :
    solve_pt1 vs = some 0 ∧ solve_pt2_model vs budget = some 0 := by
  have hinit : (initAdjacency vs).isSome := initAdjacency_isSome (fun v hv d hd =>
    (valveId_isSome_iff vs d).mpr (hres v hv d hd))
  rcases ho : initAdjacency vs with _ | m0
  · rw [ho] at hinit
    simp at hinit
  · have hida : (valveId vs "AA").isSome := (valveId_isSome_iff vs "AA").mpr haa
    rcases hid : valveId vs "AA" with _ | i
    · rw [hid] at hida
      simp at hida
    · have hbuild : build_adjacency_matrix vs = some (floyd vs.length m0) := by
        unfold build_adjacency_matrix
        rw [ho]
        rfl
      constructor
      · unfold solve_pt1 searchBest
        rw [hbuild, Option.some_bind]
        rw [collect_degenerate ((30 : Int).toNat) hid hf]
        simp [initTrack, maxN]
      · unfold solve_pt2_model
        rw [hbuild, Option.map_some']
        rw [explored_degenerate budget.toNat hid hf]
        rw [bestPerMask_pair_same (initTrack vs budget)
          { initTrack vs budget with remaining_time := 0 }
          (by rfl) (by rfl) (by rfl)]
        rw [dualCombine_single_zero]

/-- C9 counterexample: a degenerate graph that lacks the start valve makes
the computation fail (the `unwrap` of `valve_to_id.get("AA")` panics), so
"never fails" does not hold for every degenerate graph. -/
theorem C9_degenerate_counterexample :
    (∀ v ∈ c9Valves, v.flow_rate = 0) ∧ solve_pt1 c9Valves = none :=
  ⟨by decide, by decide⟩

/-- C9 witness for the amended statement. -/
theorem C9_degenerate_zero_witness :
    solve_pt1 degenValves = some 0 ∧ solve_pt2_model degenValves 26 = some 0 :=
  C9_degenerate_zero degenValves 26 (by decide) (by decide) (by decide)

/-- C5 (spec-modelled, `solve_pt2` is `todo!()` in the source): the two-agent
answer is exactly the maximum of `table[maskA] + table[maskB]` over pairs of
Best-Per-Mask entries with `maskA &&& maskB = 0`, and it is at least the best
single entry's value (the empty mask — reached by the start state — pairs
disjointly with every mask). -/
theorem C5_dual_combiner (vs : List Valve) (adj : Mat) (budget : Int)
    (hb : build_adjacency_matrix vs = some adj)
    (hclosed : ∀ v ∈ vs, v.opened = false) :
    ∃ table r,
      table = bestPerMask (collectExplored adj (budget.toNat + 1) (initTrack vs budget)) ∧
      solve_pt2_model vs budget = some r ∧
      (∀ p1 ∈ table, ∀ p2 ∈ table, p1.1 &&& p2.1 = 0 → p1.2 + p2.2 ≤ r) ∧
      (r = 0 ∨ ∃ p1 ∈ table, ∃ p2 ∈ table, p1.1 &&& p2.1 = 0 ∧ r = p1.2 + p2.2) ∧
      (∀ p ∈ table, p.2 ≤ r) := by
  refine ⟨bestPerMask (collectExplored adj (budget.toNat + 1) (initTrack vs budget)),
    dualCombine (bestPerMask (collectExplored adj (budget.toNat + 1) (initTrack vs budget))),
    rfl, ?_, ?_, ?_, ?_⟩
  · unfold solve_pt2_model
    rw [hb, Option.map_some']
  · intro p1 h1 p2 h2 hdisj
    exact foldl_combineStep_ge (p1, p2)
      (List.mem_flatMap.mpr ⟨p1, h1, List.mem_map.mpr ⟨p2, h2, rfl⟩⟩) hdisj 0
  · rcases foldl_combineStep_attained
      ((bestPerMask (collectExplored adj (budget.toNat + 1) (initTrack vs budget))).flatMap
        (fun a => (bestPerMask (collectExplored adj (budget.toNat + 1)
          (initTrack vs budget))).map (fun b => (a, b)))) 0 with h | ⟨ab, hab, hdj, he⟩
    · exact Or.inl h
    · rcases List.mem_flatMap.mp hab with ⟨p1, h1, hmap⟩
      rcases List.mem_map.mp hmap with ⟨p2, h2, hpair⟩
      subst hpair
      exact Or.inr ⟨p1, h1, p2, h2, hdj, he⟩
  · intro p hp
    have hroot : initTrack vs budget ∈
        collectExplored adj (budget.toNat + 1) (initTrack vs budget) := by
      simp only [collectExplored]
      exact List.mem_cons_self _ _
    rcases bestPerMask_mem_of_state hroot with ⟨v0, hv0⟩
    have hm0 : maskOf (initTrack vs budget).valves = 0 := maskOf_closed hclosed
    rw [hm0] at hv0
    have hpair : (p, (0, v0)) ∈
        (bestPerMask (collectExplored adj (budget.toNat + 1)
          (initTrack vs budget))).flatMap
          (fun a => (bestPerMask (collectExplored adj (budget.toNat + 1)
            (initTrack vs budget))).map (fun b => (a, b))) := by
      rw [List.mem_flatMap]
      exact ⟨p, hp, List.mem_map.mpr ⟨(0, v0), hv0, rfl⟩⟩
    have hge := foldl_combineStep_ge (p, (0, v0)) hpair (Nat.and_zero p.1) 0
    have hge2 : p.2 + v0 ≤ dualCombine (bestPerMask (collectExplored adj
        (budget.toNat + 1) (initTrack vs budget))) := hge
    omega

/-- C5 witness at a concrete graph and budget. -/
theorem C5_dual_combiner_witness :
    ∃ table r,
      table = bestPerMask (collectExplored wAdj ((30 : Int).toNat + 1)
        (initTrack wValves 30)) ∧
      solve_pt2_model wValves 30 = some r ∧
      (∀ p1 ∈ table, ∀ p2 ∈ table, p1.1 &&& p2.1 = 0 → p1.2 + p2.2 ≤ r) ∧
      (r = 0 ∨ ∃ p1 ∈ table, ∃ p2 ∈ table, p1.1 &&& p2.1 = 0 ∧ r = p1.2 + p2.2) ∧
      (∀ p ∈ table, p.2 ≤ r) :=
  C5_dual_combiner wValves wAdj 30 (by decide) (by decide)

/-! The Floyd-Warshall relaxation: entrywise characterization. -/

theorem eadd_assoc (a b c : EDist) : eadd (eadd a b) c = eadd a (eadd b c) := by
  cases a <;> cases b <;> cases c <;> simp [eadd] <;> omega

theorem ele_none_none : ele (none : EDist) none := by
  simp [ele, elt]

theorem Square_relax {m : Mat} {n : Nat} (hs : Square m n) (k : Nat) (p : Nat × Nat) :
    Square (relax k m p) n := by
  unfold relax
  split
  · exact Square_mset hs _ _ _
  · exact hs

theorem Square_foldl_relax {m : Mat} {n : Nat} (k : Nat) (L : List (Nat × Nat))
    (hs : Square m n) : Square (L.foldl (relax k) m) n := by
  induction L generalizing m with
  | nil => exact hs
  | cons p L ih =>
    simp only [List.foldl_cons]
    exact ih (Square_relax hs k p)

theorem relax_eq (k : Nat) (M : Mat) (p1 p2 : Nat) :
    relax k M (p1, p2) =
      if elt (eadd (mget M p1 k) (mget M k p2)) (mget M p1 p2)
      then mset M p1 p2 (eadd (mget M p1 k) (mget M k p2)) else M := rfl

theorem foldl_relax_mget {n : Nat} (k : Nat) (L : List (Nat × Nat)) {m : Mat}
    (hs : Square m n) (i j : Nat) :
    mget (L.foldl (relax k) m) i j =
      if (i, j) ∈ L then emin (mget m i j) (eadd (mget m i k) (mget m k j))
      else mget m i j := by
  induction L using List.reverseRecOn generalizing i j with
  | nil => simp
  | append_singleton L p ih =>
    rcases p with ⟨p1, p2⟩
    rw [List.foldl_append, List.foldl_cons, List.foldl_nil]
    have hMik : mget (L.foldl (relax k) m) p1 k = mget m p1 k := by
      rw [ih]
      split
      · exact emin_eq_of_ele (ele_eadd_left _ _)
      · rfl
    have hMkj : mget (L.foldl (relax k) m) k p2 = mget m k p2 := by
      rw [ih]
      split
      · exact emin_eq_of_ele (ele_eadd_right _ _)
      · rfl
    have hSM : Square (L.foldl (relax k) m) n := Square_foldl_relax k L hs
    rw [relax_eq, hMik, hMkj]
    by_cases hp : i = p1 ∧ j = p2
    · rcases hp with ⟨hi, hj⟩
      subst hi
      subst hj
      have hmem : (i, j) ∈ L ++ [(i, j)] := by simp
      rw [if_pos hmem]
      split
      · rename_i hlt
        have hSsome : ∃ s, eadd (mget m i k) (mget m k j) = some s := by
          rcases hS : eadd (mget m i k) (mget m k j) with _ | s
          · rw [hS] at hlt
            simp [elt] at hlt
          · exact ⟨s, rfl⟩
        rcases hSsome with ⟨s, hS⟩
        have hin : i < n ∧ j < n := by
          constructor
          · by_contra hc
            rw [mget_out hs (Or.inl (Nat.le_of_not_lt hc))] at hS
            simp [eadd] at hS
          · by_contra hc
            rw [mget_out hs (Or.inr (Nat.le_of_not_lt hc))] at hS
            rcases hik : mget m i k with _ | a
            · rw [hik] at hS
              simp [eadd] at hS
            · rw [hik] at hS
              simp [eadd] at hS
        rw [mget_mset_self hSM hin.1 hin.2]
        rw [ih] at hlt
        split at hlt
        · exfalso
          have hR := emin_ele_right (mget m i j) (eadd (mget m i k) (mget m k j))
          unfold ele at hR
          rw [hR] at hlt
          exact Bool.false_ne_true hlt
        · unfold emin
          rw [if_pos hlt]
      · rename_i hnlt
        by_cases hL : (i, j) ∈ L
        · rw [ih, if_pos hL]
        · rw [ih, if_neg hL]
          unfold emin
          rw [if_neg (by rw [ih, if_neg hL] at hnlt; exact hnlt)]
    · have hne : p1 ≠ i ∨ p2 ≠ j := by
        by_cases h1 : p1 = i
        · right
          intro h2
          exact hp ⟨h1.symm, h2.symm⟩
        · exact Or.inl h1
      have hmem : ((i, j) ∈ L ++ [(p1, p2)]) ↔ ((i, j) ∈ L) := by
        simp only [List.mem_append, List.mem_singleton]
        constructor
        · rintro (h | h)
          · exact h
          · exfalso
            apply hp
            simp [Prod.mk.injEq] at h
            exact ⟨h.1, h.2⟩
        · exact Or.inl
      split
      · rw [mget_mset_ne hne, ih]
        simp only [hmem]
      · rw [ih]
        simp only [hmem]

theorem pairs_mem (n i j : Nat) : (i, j) ∈ pairs n ↔ i < n ∧ j < n := by
  unfold pairs
  rw [List.mem_flatMap]
  constructor
  · rintro ⟨a, ha, hb⟩
    rcases List.mem_map.mp hb with ⟨b, hbm, he⟩
    rcases Prod.mk.injEq .. ▸ he with ⟨h1, h2⟩
    subst h1
    subst h2
    exact ⟨List.mem_range.mp ha, List.mem_range.mp hbm⟩
  · rintro ⟨hi, hj⟩
    exact ⟨i, List.mem_range.mpr hi, List.mem_map.mpr ⟨j, List.mem_range.mpr hj, rfl⟩⟩

theorem Square_floydK {m : Mat} {n : Nat} (hs : Square m n) (k : Nat) :
    Square (floydK n m k) n :=
  Square_foldl_relax k (pairs n) hs

theorem floydK_mget {n : Nat} {m : Mat} (hs : Square m n) (k i j : Nat) :
    mget (floydK n m k) i j =
      if i < n ∧ j < n then emin (mget m i j) (eadd (mget m i k) (mget m k j))
      else mget m i j := by
  unfold floydK
  rw [foldl_relax_mget k (pairs n) hs i j]
  simp only [pairs_mem]

/-! Round-level invariants of the relaxation. -/

theorem floydK_mget_le {n : Nat} {m : Mat} (hs : Square m n) (k i j : Nat) :
    ele (mget (floydK n m k) i j) (mget m i j) := by
  rw [floydK_mget hs]
  split
  · exact emin_ele_left _ _
  · exact ele_refl _

theorem floydK_diag {n : Nat} {m : Mat} (hs : Square m n) {i : Nat} (k : Nat)
    (hd : mget m i i = some 0) : mget (floydK n m k) i i = some 0 := by
  have h := floydK_mget_le hs k i i
  rw [hd] at h
  exact ele_some_zero h

theorem floyd_rounds_diag {n : Nat} (K : List Nat) {m : Mat} (hs : Square m n)
    {i : Nat} (hd : mget m i i = some 0) :
    mget (K.foldl (floydK n) m) i i = some 0 := by
  induction K generalizing m with
  | nil => exact hd
  | cons k K ih =>
    simp only [List.foldl_cons]
    exact ih (Square_floydK hs k) (floydK_diag hs k hd)

theorem floydK_symm {n : Nat} {m : Mat} (hs : Square m n) (k : Nat)
    (hsym : ∀ i j, mget m i j = mget m j i) (i j : Nat) :
    mget (floydK n m k) i j = mget (floydK n m k) j i := by
  rw [floydK_mget hs, floydK_mget hs]
  by_cases h : i < n ∧ j < n
  · rw [if_pos h, if_pos ⟨h.2, h.1⟩]
    rw [hsym i j, hsym i k, hsym k j, eadd_comm]
  · rw [if_neg h, if_neg (fun hc => h ⟨hc.2, hc.1⟩)]
    exact hsym i j

theorem floyd_rounds_symm {n : Nat} (K : List Nat) {m : Mat} (hs : Square m n)
    (hsym : ∀ i j, mget m i j = mget m j i) (i j : Nat) :
    mget (K.foldl (floydK n) m) i j = mget (K.foldl (floydK n) m) j i := by
  induction K generalizing m with
  | nil => exact hsym i j
  | cons k K ih =>
    simp only [List.foldl_cons]
    exact ih (Square_floydK hs k) (floydK_symm hs k hsym)

theorem floydK_triangle_est {n : Nat} {m : Mat} (hs : Square m n) (k : Nat) :
    triangleVia (floydK n m k) k := by
  intro i j
  by_cases hin : i < n ∧ j < n
  · have hik : mget (floydK n m k) i k = mget m i k := by
      rw [floydK_mget hs]
      split
      · exact emin_eq_of_ele (ele_eadd_left _ _)
      · rfl
    have hkj : mget (floydK n m k) k j = mget m k j := by
      rw [floydK_mget hs]
      split
      · exact emin_eq_of_ele (ele_eadd_right _ _)
      · rfl
    rw [hik, hkj, floydK_mget hs, if_pos hin]
    exact emin_ele_right _ _
  · have hnone : mget (floydK n m k) i j = none := by
      rcases Nat.lt_or_ge i n with hi | hi
      · rcases Nat.lt_or_ge j n with hj | hj
        · exact absurd ⟨hi, hj⟩ hin
        · exact mget_out (Square_floydK hs k) (Or.inr hj)
      · exact mget_out (Square_floydK hs k) (Or.inl hi)
    have hsum : eadd (mget (floydK n m k) i k) (mget (floydK n m k) k j) = none := by
      rcases Nat.lt_or_ge i n with hi | hi
      · rcases Nat.lt_or_ge j n with hj | hj
        · exact absurd ⟨hi, hj⟩ hin
        · rw [mget_out (Square_floydK hs k) (Or.inr hj)]
          rcases mget (floydK n m k) i k with _ | a <;> rfl
      · rw [mget_out (Square_floydK hs k) (Or.inl hi)]
        rfl
    rw [hnone, hsum]
    exact ele_none_none

theorem floydK_triangle_pres {n : Nat} {m : Mat} (hs : Square m n) (k : Nat)
    {c : Nat} (hc : triangleVia m c) : triangleVia (floydK n m k) c := by
  intro i j
  by_cases hin : i < n ∧ j < n
  · have hle1 : ele (mget (floydK n m k) i j) (mget m i j) := floydK_mget_le hs k i j
    have hle2 : ele (mget (floydK n m k) i j) (eadd (mget m i k) (mget m k j)) := by
      rw [floydK_mget hs, if_pos hin]
      exact emin_ele_right _ _
    have hA : mget (floydK n m k) i c = mget m i c ∨
        mget (floydK n m k) i c = eadd (mget m i k) (mget m k c) := by
      rw [floydK_mget hs]
      split
      · exact emin_cases _ _
      · exact Or.inl rfl
    have hB : mget (floydK n m k) c j = mget m c j ∨
        mget (floydK n m k) c j = eadd (mget m c k) (mget m k j) := by
      rw [floydK_mget hs]
      split
      · exact emin_cases _ _
      · exact Or.inl rfl
    rcases hA with hA | hA <;> rcases hB with hB | hB <;> rw [hA, hB]
    · exact ele_trans hle1 (hc i j)
    · refine ele_trans hle2 ?_
      have h1 : ele (eadd (mget m i k) (mget m k j))
          (eadd (eadd (mget m i c) (mget m c k)) (mget m k j)) :=
        eadd_ele_eadd (hc i k) (ele_refl _)
      rw [eadd_assoc] at h1
      exact h1
    · refine ele_trans hle2 ?_
      have h1 : ele (eadd (mget m i k) (mget m k j))
          (eadd (mget m i k) (eadd (mget m k c) (mget m c j))) :=
        eadd_ele_eadd (ele_refl _) (hc k j)
      rw [← eadd_assoc] at h1
      exact h1
    · refine ele_trans hle2 ?_
      exact eadd_ele_eadd (ele_eadd_left _ _) (ele_eadd_right _ _)
  · have hnone : mget (floydK n m k) i j = none := by
      rcases Nat.lt_or_ge i n with hi | hi
      · rcases Nat.lt_or_ge j n with hj | hj
        · exact absurd ⟨hi, hj⟩ hin
        · exact mget_out (Square_floydK hs k) (Or.inr hj)
      · exact mget_out (Square_floydK hs k) (Or.inl hi)
    have hsum : eadd (mget (floydK n m k) i c) (mget (floydK n m k) c j) = none := by
      rcases Nat.lt_or_ge i n with hi | hi
      · rcases Nat.lt_or_ge j n with hj | hj
        · exact absurd ⟨hi, hj⟩ hin
        · rw [mget_out (Square_floydK hs k) (Or.inr hj)]
          rcases mget (floydK n m k) i c with _ | a <;> rfl
      · rw [mget_out (Square_floydK hs k) (Or.inl hi)]
        rfl
    rw [hnone, hsum]
    exact ele_none_none

/-! Entrywise characterization of the adjacency initialization. -/

theorem mget_replicate_none (n x y : Nat) :
    mget (List.replicate n (List.replicate n (none : EDist))) x y = none := by
  unfold mget
  rw [lget_replicate]
  by_cases hx : x < n
  · rw [if_pos hx]
    show (match lget (List.replicate n (none : EDist)) y with
      | none => none
      | some v => v) = none
    rw [lget_replicate]
    by_cases hy : y < n
    · rw [if_pos hy]
    · rw [if_neg hy]
  · rw [if_neg hx]

theorem Square_setEdges {vs : List Valve} {i : Nat} {dests : List String}
    {M M2 : Mat} {n : Nat} (hsq : Square M n)
    (hset : setEdges vs i dests M = some M2) : Square M2 n := by
  induction dests generalizing M with
  | nil =>
    unfold setEdges at hset
    simp only [List.foldlM_nil] at hset
    cases hset
    exact hsq
  | cons d ds ih =>
    unfold setEdges at hset ih
    simp only [List.foldlM_cons] at hset
    rcases ho : valveId vs d with _ | jd
    · rw [ho] at hset
      simp at hset
    · rw [ho] at hset
      simp only [Option.map_some'] at hset
      exact ih (Square_mset hsq i jd _) hset

theorem setEdges_mget {vs : List Valve} {i : Nat} {dests : List String} {M M2 : Mat}
    (hsq : Square M vs.length) (hi : i < vs.length)
    (hset : setEdges vs i dests M = some M2) (x y : Nat) :
    mget M2 x y =
      if x = i ∧ ∃ d ∈ dests, valveId vs d = some y then some 1 else mget M x y := by
  induction dests generalizing M with
  | nil =>
    unfold setEdges at hset
    simp only [List.foldlM_nil] at hset
    cases hset
    simp
  | cons d ds ih =>
    unfold setEdges at hset ih
    simp only [List.foldlM_cons] at hset
    rcases ho : valveId vs d with _ | jd
    · rw [ho] at hset
      simp at hset
    · rw [ho] at hset
      simp only [Option.map_some'] at hset
      have hjd : jd < vs.length := valveId_lt_length ho
      rw [ih (Square_mset hsq i jd _) hset]
      by_cases hx : x = i
      · subst hx
        by_cases hds : ∃ d2 ∈ ds, valveId vs d2 = some y
        · rw [if_pos ⟨rfl, hds⟩]
          rcases hds with ⟨d2, hd2, hd2v⟩
          rw [if_pos ⟨rfl, ⟨d2, List.mem_cons_of_mem _ hd2, hd2v⟩⟩]
        · rw [if_neg (fun hc => hds hc.2)]
          by_cases hy : y = jd
          · subst hy
            rw [mget_mset_self hsq hi hjd]
            rw [if_pos ⟨rfl, ⟨d, List.mem_cons_self _ _, ho⟩⟩]
          · rw [mget_mset_ne (Or.inr (fun hc => hy hc.symm))]
            rw [if_neg ?_]
            rintro ⟨-, d2, hd2m, hd2v⟩
            rcases List.mem_cons.mp hd2m with hd2m | hd2m
            · subst hd2m
              rw [ho] at hd2v
              exact hy (by injection hd2v with h2; exact h2.symm)
            · exact hds ⟨d2, hd2m, hd2v⟩
      · rw [if_neg (fun hc => hx hc.1), if_neg (fun hc => hx hc.1)]
        rw [mget_mset_ne (Or.inl (fun hc => hx hc.symm))]

theorem setEdges_mget_ne {vs : List Valve} {i : Nat} {dests : List String}
    {M M2 : Mat} (hset : setEdges vs i dests M = some M2) {x : Nat} (hx : x ≠ i)
    (y : Nat) : mget M2 x y = mget M x y := by
  induction dests generalizing M with
  | nil =>
    unfold setEdges at hset
    simp only [List.foldlM_nil] at hset
    cases hset
    rfl
  | cons d ds ih =>
    unfold setEdges at hset ih
    simp only [List.foldlM_cons] at hset
    rcases ho : valveId vs d with _ | jd
    · rw [ho] at hset
      simp at hset
    · rw [ho] at hset
      simp only [Option.map_some'] at hset
      rw [ih hset]
      exact mget_mset_ne (Or.inl (fun hc => hx hc.symm)) _

theorem initFold_untouched {vs : List Valve} (l : List (Nat × Valve)) :
    ∀ {M M2 : Mat},
      (l.foldlM (fun acc p =>
        setEdges vs p.1 p.2.destinations (mset acc p.1 p.1 (some 0))) M) = some M2 →
      ∀ x y, (∀ p ∈ l, p.1 ≠ x) → mget M2 x y = mget M x y := by
  induction l with
  | nil =>
    intro M M2 hset x y _
    simp only [List.foldlM_nil] at hset
    cases hset
    rfl
  | cons q l ih =>
    intro M M2 hset x y hne
    simp only [List.foldlM_cons] at hset
    rcases hq : setEdges vs q.1 q.2.destinations (mset M q.1 q.1 (some 0)) with _ | M1
    · rw [hq] at hset
      exact Option.noConfusion hset
    · rw [hq] at hset
      replace hset : (l.foldlM (fun acc p =>
        setEdges vs p.1 p.2.destinations (mset acc p.1 p.1 (some 0))) M1) = some M2 := hset
      have hqx : q.1 ≠ x := hne q (List.mem_cons_self _ _)
      rw [ih hset x y (fun p hp => hne p (List.mem_cons_of_mem _ hp))]
      rw [setEdges_mget_ne hq (fun hc => hqx hc.symm)]
      exact mget_mset_ne (Or.inl hqx) _

theorem initFold_square {vs : List Valve} (l : List (Nat × Valve)) :
    ∀ {M M2 : Mat}, Square M vs.length →
      (l.foldlM (fun acc p =>
        setEdges vs p.1 p.2.destinations (mset acc p.1 p.1 (some 0))) M) = some M2 →
      Square M2 vs.length := by
  induction l with
  | nil =>
    intro M M2 hsq hset
    simp only [List.foldlM_nil] at hset
    cases hset
    exact hsq
  | cons q l ih =>
    intro M M2 hsq hset
    simp only [List.foldlM_cons] at hset
    rcases hq : setEdges vs q.1 q.2.destinations (mset M q.1 q.1 (some 0)) with _ | M1
    · rw [hq] at hset
      exact Option.noConfusion hset
    · rw [hq] at hset
      replace hset : (l.foldlM (fun acc p =>
        setEdges vs p.1 p.2.destinations (mset acc p.1 p.1 (some 0))) M1) = some M2 := hset
      exact ih (Square_setEdges (Square_mset hsq q.1 q.1 _) hq) hset

theorem initFold_row {vs : List Valve} (l : List (Nat × Valve)) :
    ∀ {M M2 : Mat}, Square M vs.length →
      (∀ p ∈ l, p.1 < vs.length) → (l.map Prod.fst).Nodup →
      (l.foldlM (fun acc p =>
        setEdges vs p.1 p.2.destinations (mset acc p.1 p.1 (some 0))) M) = some M2 →
      ∀ p ∈ l, ∀ y, mget M2 p.1 y =
        if ∃ d ∈ p.2.destinations, valveId vs d = some y then some 1
        else if y = p.1 then some 0 else mget M p.1 y := by
  induction l with
  | nil =>
    intro M M2 _ _ _ _ p hp
    simp at hp
  | cons q l ih =>
    intro M M2 hsq hlt hnd hset p hp y
    simp only [List.foldlM_cons] at hset
    rcases hq : setEdges vs q.1 q.2.destinations (mset M q.1 q.1 (some 0)) with _ | M1
    · rw [hq] at hset
      exact Option.noConfusion hset
    · rw [hq] at hset
      replace hset : (l.foldlM (fun acc p =>
        setEdges vs p.1 p.2.destinations (mset acc p.1 p.1 (some 0))) M1) = some M2 := hset
      simp only [List.map_cons, List.nodup_cons] at hnd
      rcases List.mem_cons.mp hp with hp | hp
      · subst hp
        have huntouched : mget M2 p.1 y = mget M1 p.1 y := by
          refine initFold_untouched l hset p.1 y ?_
          intro r hr hc
          exact hnd.1 (hc ▸ List.mem_map_of_mem Prod.fst hr)
        rw [huntouched]
        have h1 := setEdges_mget (Square_mset hsq p.1 p.1 _)
          (hlt p (List.mem_cons_self _ _)) hq p.1 y
        rw [h1]
        by_cases hedge : ∃ d ∈ p.2.destinations, valveId vs d = some y
        · rw [if_pos ⟨rfl, hedge⟩, if_pos hedge]
        · rw [if_neg (fun hc => hedge hc.2), if_neg hedge]
          by_cases hy : y = p.1
          · subst hy
            rw [mget_mset_self hsq (hlt p (List.mem_cons_self _ _))
              (hlt p (List.mem_cons_self _ _)), if_pos rfl]
          · rw [mget_mset_ne (Or.inr (fun hc => hy hc.symm)), if_neg hy]
      · have hqp : q.1 ≠ p.1 := by
          intro hc
          exact hnd.1 (hc ▸ List.mem_map_of_mem Prod.fst hp)
        rw [ih (Square_setEdges (Square_mset hsq q.1 q.1 _) hq)
          (fun r hr => hlt r (List.mem_cons_of_mem _ hr)) hnd.2 hset p hp y]
        by_cases hedge : ∃ d ∈ p.2.destinations, valveId vs d = some y
        · rw [if_pos hedge, if_pos hedge]
        · rw [if_neg hedge, if_neg hedge]
          by_cases hy : y = p.1
          · rw [if_pos hy, if_pos hy]
          · rw [if_neg hy, if_neg hy]
            rw [setEdges_mget_ne hq (fun hc => hqp hc.symm)]
            exact mget_mset_ne (Or.inl hqp) _

theorem lget_of_mem_enumFrom {α : Type} {l : List α} :
    ∀ {k : Nat} {p : Nat × α}, p ∈ l.enumFrom k → k ≤ p.1 ∧ lget l (p.1 - k) = some p.2 := by
  induction l with
  | nil =>
    intro k p h
    simp [List.enumFrom] at h
  | cons a l ih =>
    intro k p h
    simp only [List.enumFrom] at h
    rcases List.mem_cons.mp h with h | h
    · subst h
      simp [lget]
    · rcases ih h with ⟨hk, hl⟩
      refine ⟨by omega, ?_⟩
      have he : p.1 - k = (p.1 - (k + 1)) + 1 := by omega
      rw [he]
      simpa [lget] using hl

theorem mem_enumFrom_of_lget {α : Type} {l : List α} :
    ∀ {x : Nat} {v : α} (k : Nat), lget l x = some v → (k + x, v) ∈ l.enumFrom k := by
  induction l with
  | nil =>
    intro x v k h
    simp [lget] at h
  | cons a l ih =>
    intro x v k h
    cases x with
    | zero =>
      simp [lget] at h
      subst h
      simp [List.enumFrom]
    | succ m =>
      simp only [lget] at h
      simp only [List.enumFrom]
      refine List.mem_cons_of_mem _ ?_
      have he : k + (m + 1) = (k + 1) + m := by omega
      rw [he]
      exact ih (k + 1) h

theorem enum_fst_lt {vs : List Valve} {p : Nat × Valve} (hp : p ∈ vs.enum) :
    p.1 < vs.length := by
  rcases lget_of_mem_enumFrom (k := 0) hp with ⟨-, hl⟩
  rw [Nat.sub_zero] at hl
  have := (lget_isSome_iff vs p.1).mp (by simp [hl])
  omega

theorem enum_fst_nodup (vs : List Valve) : (vs.enum.map Prod.fst).Nodup := by
  rw [List.enum_map_fst]
  exact List.nodup_range _

theorem edgeTo_lget_none {vs : List Valve} {x : Nat} (h : lget vs x = none) (y : Nat) :
    ¬ edgeTo vs x y := by
  intro he
  simp [edgeTo, h] at he

theorem initAdjacency_square {vs : List Valve} {m0 : Mat}
    (ho : initAdjacency vs = some m0) : Square m0 vs.length := by
  unfold initAdjacency at ho
  exact initFold_square vs.enum (Square_replicate vs.length) ho

/-- The exact content of the initialized adjacency matrix: `1` toward every
resolved destination, `0` on the processed diagonal, `INFINITY` elsewhere. -/
theorem initAdjacency_mget {vs : List Valve} {m0 : Mat}
    (ho : initAdjacency vs = some m0) (x y : Nat) :
    mget m0 x y =
      if edgeTo vs x y then some 1
      else if y = x ∧ x < vs.length then some 0
      else none := by
  unfold initAdjacency at ho
  rcases hx : lget vs x with _ | vx
  · have hxlen : vs.length ≤ x := (lget_eq_none_iff vs x).mp hx
    have huntouched := initFold_untouched vs.enum ho x y
      (fun p hp hc => by
        have := enum_fst_lt hp
        omega)
    rw [huntouched, mget_replicate_none]
    rw [if_neg (edgeTo_lget_none hx y), if_neg (fun hc => by omega)]
  · have hxlen : x < vs.length := (lget_isSome_iff vs x).mp (by simp [hx])
    have hmem : (x, vx) ∈ vs.enum := by
      have := mem_enumFrom_of_lget (l := vs) 0 hx
      simpa [List.enum] using this
    have hrow := initFold_row vs.enum (Square_replicate vs.length)
      (fun p hp => enum_fst_lt hp) (enum_fst_nodup vs) ho (x, vx) hmem y
    rw [hrow, mget_replicate_none]
    have hiff : edgeTo vs x y ↔ ∃ d ∈ vx.destinations, valveId vs d = some y := by
      simp [edgeTo, hx]
    by_cases he : ∃ d ∈ vx.destinations, valveId vs d = some y
    · rw [if_pos he, if_pos (hiff.mpr he)]
    · rw [if_neg he, if_neg (fun hc => he (hiff.mp hc))]
      by_cases hy : y = x
      · rw [if_pos hy, if_pos ⟨hy, hxlen⟩]
      · rw [if_neg hy, if_neg (fun hc => hy hc.1)]

theorem Square_rounds {n : Nat} (K : List Nat) {m : Mat} (hs : Square m n) :
    Square (K.foldl (floydK n) m) n := by
  induction K generalizing m with
  | nil => exact hs
  | cons k K ih =>
    simp only [List.foldl_cons]
    exact ih (Square_floydK hs k)

theorem floyd_rounds_pres {n : Nat} (K : List Nat) {m : Mat} (hs : Square m n)
    {c : Nat} (hc : triangleVia m c) : triangleVia (K.foldl (floydK n) m) c := by
  induction K generalizing m with
  | nil => exact hc
  | cons k K ih =>
    simp only [List.foldl_cons]
    exact ih (Square_floydK hs k) (floydK_triangle_pres hs k hc)

theorem floyd_rounds_triangle {n : Nat} (K : List Nat) {m : Mat} (hs : Square m n) :
    ∀ k ∈ K, triangleVia (K.foldl (floydK n) m) k := by
  induction K generalizing m with
  | nil => simp
  | cons k0 K ih =>
    intro k hk
    simp only [List.foldl_cons]
    rcases List.mem_cons.mp hk with hk | hk
    · subst hk
      exact floyd_rounds_pres K (Square_floydK hs k) (floydK_triangle_est hs k)
    · exact ih (Square_floydK hs k0) k hk

/-- The triangle inequality holds unconditionally after the full relaxation. -/
theorem floyd_triangle {n : Nat} {m : Mat} (hs : Square m n) (i j k : Nat) :
    ele (mget (floyd n m) i j) (eadd (mget (floyd n m) i k) (mget (floyd n m) k j)) := by
  by_cases hk : k < n
  · exact floyd_rounds_triangle (List.range n) hs k (List.mem_range.mpr hk) i j
  · have hknone : mget (floyd n m) i k = none :=
      mget_out (Square_rounds (List.range n) hs) (Or.inr (Nat.le_of_not_lt hk))
    rw [hknone]
    exact ele_none _

/-- Decomposition of a successful `build_adjacency_matrix`. -/
theorem build_decomp {vs : List Valve} {adj : Mat}
    (hb : build_adjacency_matrix vs = some adj) :
    ∃ m0, initAdjacency vs = some m0 ∧ adj = floyd vs.length m0 := by
  unfold build_adjacency_matrix at hb
  rcases ho : initAdjacency vs with _ | m0
  · rw [ho] at hb
    exact Option.noConfusion hb
  · rw [ho, Option.map_some'] at hb
    injection hb with hb
    exact ⟨m0, rfl, hb.symm⟩

/-- The diagonal entry of the built matrix is zero at every node that does
not list its own name among its neighbors. -/
theorem build_diag_zero {vs : List Valve} {adj : Mat} {i : Nat} {v : Valve}
    (hb : build_adjacency_matrix vs = some adj)
    (hv : lget vs i = some v) (hsl : v.name ∉ v.destinations) :
    mget adj i i = some 0 := by
  rcases build_decomp hb with ⟨m0, ho, rfl⟩
  have hsq := initAdjacency_square ho
  have hilen : i < vs.length := (lget_isSome_iff vs i).mp (by simp [hv])
  have hdiag : mget m0 i i = some 0 := by
    rw [initAdjacency_mget ho i i]
    rw [if_neg ?hedge, if_pos ⟨rfl, hilen⟩]
    case hedge =>
      intro he
      rcases (by simpa [edgeTo, hv] using he : ∃ d ∈ v.destinations, valveId vs d = some i)
        with ⟨d, hdm, hdv⟩
      rcases valveId_lget hdv with ⟨w, hw, hwn⟩
      rw [hv] at hw
      injection hw with hw
      subst hw
      rw [hwn] at hsl
      exact hsl hdm
  unfold floyd
  exact floyd_rounds_diag (List.range vs.length) hsq hdiag

/-- C6 (amended): for every graph whose matrix build succeeds, the triangle
inequality holds for all triples; the diagonal entry is zero at every node
that does not list itself as a neighbor; and the matrix is symmetric whenever
the tunnel relation of the graph is symmetric. -/
theorem C6_matrix_invariants (vs : List Valve) (adj : Mat)
    (hb : build_adjacency_matrix vs = some adj) :
    (∀ i v, lget vs i = some v → v.name ∉ v.destinations → mget adj i i = some 0) ∧
      ((∀ x y, edgeTo vs x y → edgeTo vs y x) →
        ∀ i j, mget adj i j = mget adj j i) ∧
      (∀ i j k, ele (mget adj i j) (eadd (mget adj i k) (mget adj k j))) := by
  rcases build_decomp hb with ⟨m0, ho, hadj⟩
  have hsq := initAdjacency_square ho
  refine ⟨?_, ?_, ?_⟩
  · intro i v hv hsl
    exact build_diag_zero hb hv hsl
  · intro hsym i j
    subst hadj
    have hsym0 : ∀ x y, mget m0 x y = mget m0 y x := by
      intro x y
      rw [initAdjacency_mget ho x y, initAdjacency_mget ho y x]
      by_cases hxy : edgeTo vs x y
      · rw [if_pos hxy, if_pos (hsym x y hxy)]
      · rw [if_neg hxy, if_neg (fun hc => hxy (hsym y x hc))]
        by_cases hd : y = x
        · subst hd
          rfl
        · rw [if_neg (fun hc => hd hc.1), if_neg (fun hc => hd hc.1.symm)]
    unfold floyd
    exact floyd_rounds_symm (List.range vs.length) hsq hsym0 i j
  · intro i j k
    subst hadj
    exact floyd_triangle hsq i j k

set_option maxRecDepth 2000 in
/-- C6 counterexample: on a graph with a self-loop at the start node and a
one-way tunnel, the built matrix has a non-zero diagonal entry and is not
symmetric — the claim's unconditional `dist[i][i] = 0` and symmetry fail. -/
theorem C6_matrix_invariants_counterexample :
    build_adjacency_matrix c6Valves = some c6Adj ∧
      ¬ (mget c6Adj 0 0 = some 0) ∧ ¬ (mget c6Adj 0 1 = mget c6Adj 1 0) :=
  ⟨by decide, by decide, by decide⟩

/-- C6 witness for the amended statement at a concrete symmetric graph. -/
theorem C6_matrix_invariants_witness :
    build_adjacency_matrix wValves = some wAdj ∧
      mget wAdj 0 0 = some 0 ∧ mget wAdj 0 1 = mget wAdj 1 0 ∧
      ele (mget wAdj 0 1) (eadd (mget wAdj 0 0) (mget wAdj 0 1)) := by
  rcases C6_matrix_invariants wValves wAdj (by decide) with ⟨hd, hs, ht⟩
  refine ⟨by decide, ?_, ?_, ?_⟩
  · exact hd 0 { name := "AA", flow_rate := 0, destinations := ["BB"], opened := false }
      (by decide) (by decide)
  · refine hs ?_ 0 1
    intro x y hxy
    have hx2 : x < 2 := by
      rcases hex : lget wValves x with _ | vx
      · simp [edgeTo, hex] at hxy
      · have := (lget_isSome_iff wValves x).mp (by simp [hex])
        simpa using this
    have hy2 : y < 2 := by
      rcases hex : lget wValves x with _ | vx
      · simp [edgeTo, hex] at hxy
      · simp only [edgeTo, hex] at hxy
        rcases hxy with ⟨d, -, hdv⟩
        have := valveId_lt_length hdv
        simpa using this
    revert hxy
    interval_cases x <;> interval_cases y <;> decide
  · exact ht 0 1 0

/-- The lookup `valves.get(name)` returns the same valve whose index `valve_to_id` gives
(both take the first valve carrying the name). -/
theorem getValve_of_valveId {vs : List Valve} {nm : String} {i : Nat} {v : Valve}
    (hid : valveId vs nm = some i) (hv : lget vs i = some v) :
    getValve vs nm = some v := by
  induction vs generalizing i with
  | nil => simp [valveId] at hid
  | cons w rest ih =>
    by_cases hn : w.name = nm
    · simp [valveId, hn] at hid
      subst hid
      simp [lget] at hv
      subst hv
      simp [getValve, hn]
    · simp only [valveId, hn, if_false] at hid
      rcases hr : valveId rest nm with _ | i0
      · simp [hr] at hid
      · simp [hr] at hid
        subst hid
        simp only [lget] at hv
        simp only [getValve, hn, if_false]
        exact ih hr hv

/-- C4 (amended): when the start valve carries a strictly positive value, is
initially closed, does not list itself as a neighbor, and more than one time
unit remains, the start node IS generated as a candidate activation on the
first expansion (its distance to itself is zero, so it opens itself for
`value * (budget - 1)`). -/
theorem C4_start_is_candidate (vs : List Valve) (adj : Mat) (budget : Int)
    (i : Nat) (v : Valve)
    (hb : build_adjacency_matrix vs = some adj)
    (hid : valveId vs "AA" = some i)
    (hv : lget vs i = some v)
    (hop : v.opened = false)
    (hfl : 0 < v.flow_rate)
    (hsl : v.name ∉ v.destinations)
    (hbud : 1 < budget) :
    mkCand (initTrack vs budget) i v 0 ∈
      Track.candidates adj (initTrack vs budget) i := by
  apply mem_candidates_iff.mpr
  have hg : getValve vs v.name = some v := by
    rcases valveId_lget hid with ⟨w, hw, hwn⟩
    rw [hv] at hw
    injection hw with hw
    subst hw
    rw [hwn]
    exact getValve_of_valveId hid hv
  refine ⟨i, v, 0, hv, ?_, ?_, ?_, ?_, rfl⟩
  · exact build_diag_zero hb hv hsl
  · show openAt vs i = false
    simp [openAt, nameAt, hv, hg, hop]
  · show 0 < flowAt vs i
    simp [flowAt, nameAt, hv, hg, hfl]
  · show (0 : Int) < budget - ((0 : Nat) : Int) - 1
    omega

/-- C4 counterexample: on a concrete graph whose start valve `AA` has value 1,
the very first expansion generates `AA` itself as a candidate — the claim
that the start node is never generated as a candidate is false. -/
theorem C4_start_is_candidate_counterexample :
    build_adjacency_matrix c4Valves = some c4Adj ∧
      0 < (flowAt c4Valves 0) ∧
      (Track.step c4Adj (initTrack c4Valves 30)).map Track.current_valve = ["AA"] :=
  ⟨by decide, by decide, by decide⟩

/-- C4 witness for the amended statement at a concrete graph. -/
theorem C4_start_is_candidate_witness :
    mkCand (initTrack c4Valves 30) 0
        { name := "AA", flow_rate := 1, destinations := ["BB"], opened := false } 0 ∈
      Track.candidates c4Adj (initTrack c4Valves 30) 0 :=
  C4_start_is_candidate c4Valves c4Adj 30 0
    { name := "AA", flow_rate := 1, destinations := ["BB"], opened := false }
    (by decide) (by decide) (by decide) (by decide) (by decide) (by decide) (by decide)

/-! Budget monotonicity: a state with more time and pressure dominates. -/

/-- A candidate belongs to the step result. -/
theorem cand_mem_step {adj : Mat} {t c : Track} {curId : Nat}
    (hid : valveId t.valves t.current_valve = some curId)
    (hc : c ∈ Track.candidates adj t curId) : c ∈ Track.step adj t := by
  unfold Track.step
  rw [hid]
  simp only []
  have hne : Track.candidates adj t curId ≠ [] := by
    intro hnil
    rw [hnil] at hc
    simp at hc
  rw [if_neg (fun he => hne (List.isEmpty_iff.mp he))]
  exact hc

/-- Lift a maximum over a subtree into the maximum over the parent tree. -/
theorem maxN_step_lift {adj : Mat} {f2 : Nat} {t2 nt2 : Track}
    (hmem : nt2 ∈ Track.step adj t2) (hpos : 0 < nt2.remaining_time) {m2 : Nat}
    (hm2 : maxN ((collectTerminated adj (f2 - 1) nt2).map Track.released_pressure) =
      some m2) (hf2 : 1 ≤ f2) :
    ∃ m, maxN ((collectTerminated adj f2 t2).map Track.released_pressure) = some m ∧
      m2 ≤ m := by
  obtain ⟨g2, rfl⟩ : ∃ g2, f2 = g2 + 1 := ⟨f2 - 1, by omega⟩
  simp only [Nat.add_sub_cancel] at hm2
  rcases List.mem_map.mp (maxN_mem hm2) with ⟨y, hy1, hy2⟩
  have hyin : y ∈ collectTerminated adj (g2 + 1) t2 := by
    simp only [collectTerminated]
    rw [List.mem_flatMap]
    refine ⟨nt2, hmem, ?_⟩
    rw [if_pos hpos]
    exact hy1
  rcases le_maxN (List.mem_map_of_mem Track.released_pressure hyin) with ⟨m, hm, hle⟩
  exact ⟨m, hm, by omega⟩

/-- The simulation: a run from a dominating state reaches at least every
terminated value of the run from the dominated state. -/
theorem collect_dominates (adj : Mat) :
    ∀ (f f2 : Nat) (t t2 : Track),
      t.valves = t2.valves → t.current_valve = t2.current_valve →
      t.remaining_time ≤ t2.remaining_time →
      t.released_pressure ≤ t2.released_pressure →
      t.remaining_time.toNat < f → t2.remaining_time.toNat < f2 →
      ∀ x ∈ collectTerminated adj f t,
        ∃ m, maxN ((collectTerminated adj f2 t2).map Track.released_pressure) = some m ∧
          x.released_pressure ≤ m := by
  intro f
  induction f with
  | zero =>
    intro f2 t t2 _ _ _ _ hf _ x hx
    omega
  | succ g ih =>
    intro f2 t t2 hval hcur hrem hrel hf hf2 x hx
    simp only [collectTerminated] at hx
    rw [List.mem_flatMap] at hx
    rcases hx with ⟨nt, hnt, hx⟩
    rcases hcid : valveId t.valves t.current_valve with _ | curId
    · unfold Track.step at hnt
      rw [hcid] at hnt
      simp at hnt
    · have hcid2 : valveId t2.valves t2.current_valve = some curId := by
        rw [← hval, ← hcur]
        exact hcid
      rcases mem_step hcid hnt with hc | ⟨hce, hfb⟩
      · rcases mem_candidates_iff.mp hc with ⟨j, v, d, hvj, hdj, hoj, hfj, htj, hntE⟩
        have hvj2 : lget t2.valves j = some v := by
          rw [← hval]
          exact hvj
        have hoj2 : openAt t2.valves j = false := by
          rw [← hval]
          exact hoj
        have hfj2 : 0 < flowAt t2.valves j := by
          rw [← hval]
          exact hfj
        have htj2 : 0 < t2.remaining_time - (d : Int) - 1 := by omega
        have hc2 : mkCand t2 j v d ∈ Track.candidates adj t2 curId :=
          mem_candidates_iff.mpr ⟨j, v, d, hvj2, hdj, hoj2, hfj2, htj2, rfl⟩
        subst hntE
        have hpos : (0 : Int) < (mkCand t j v d).remaining_time := htj
        rw [if_pos hpos] at hx
        have hrec := ih (f2 - 1) (mkCand t j v d) (mkCand t2 j v d)
          (by simp only [mkCand]; rw [hval]) (by simp only [mkCand])
          (by simp only [mkCand]; omega)
          (by
            simp only [mkCand, hoj, hoj2, Bool.false_eq_true, if_false, ← hval]
            have h1 : ((t.remaining_time - (d : Int) - 1) *
                (flowAt t.valves j : Int) * 1).toNat =
                flowAt t.valves j * (t.remaining_time - (d : Int) - 1).toNat :=
              release_toNat _ htj
            have h2 : ((t2.remaining_time - (d : Int) - 1) *
                (flowAt t.valves j : Int) * 1).toNat =
                flowAt t.valves j * (t2.remaining_time - (d : Int) - 1).toNat :=
              release_toNat _ htj2
            rw [h1, h2]
            have h3 : (t.remaining_time - (d : Int) - 1).toNat ≤
                (t2.remaining_time - (d : Int) - 1).toNat := by omega
            have h4 := Nat.mul_le_mul_left (flowAt t.valves j) h3
            omega)
          (by simp only [mkCand]; omega)
          (by simp only [mkCand]; omega)
          x hx
        rcases hrec with ⟨m2, hm2, hxm⟩
        have hlift := maxN_step_lift (cand_mem_step hcid2 hc2)
          (by simp only [mkCand]; exact htj2) hm2 (by omega)
        rcases hlift with ⟨m, hm, hle⟩
        exact ⟨m, hm, by omega⟩
      · subst hfb
        rw [if_neg (by simp)] at hx
        simp at hx
        subst hx
        have hw2 : (valveId t2.valves t2.current_valve).isSome = true := by
          simp [hcid2]
        have hne : collectTerminated adj f2 t2 ≠ [] := collect_ne_nil hw2 hf2
        rcases List.exists_mem_of_ne_nil _ hne with ⟨y, hy⟩
        have hyrel := collect_released_ge f2 t2 y hy
        rcases le_maxN (List.mem_map_of_mem Track.released_pressure hy) with ⟨m, hm, hle⟩
        refine ⟨m, hm, ?_⟩
        simp only []
        omega

/-- C7: increasing the time budget never decreases the single-agent maximum
value computed by the search. -/
theorem C7_budget_monotone (vs : List Valve) (T T2 : Int) (r : Nat)
    (hT : T ≤ T2) (h : searchBest vs T = some r) :
    ∃ r2, searchBest vs T2 = some r2 ∧ r ≤ r2 := by
  unfold searchBest at h ⊢
  rcases hb : build_adjacency_matrix vs with _ | adj
  · rw [hb] at h
    exact Option.noConfusion h
  · rw [hb, Option.some_bind] at h
    rw [Option.some_bind]
    rcases List.mem_map.mp (maxN_mem h) with ⟨x, hx, hxr⟩
    have hdom := collect_dominates adj (T.toNat + 1) (T2.toNat + 1)
      (initTrack vs T) (initTrack vs T2) rfl rfl hT (Nat.le_refl _)
      (Nat.lt_succ_self _) (Nat.lt_succ_self _) x hx
    rcases hdom with ⟨m, hm, hxm⟩
    exact ⟨m, hm, by omega⟩

/-- C7 witness at a concrete graph and budgets 3 ≤ 4. -/
theorem C7_budget_monotone_witness :
    searchBest wValves 3 = some 5 ∧ ∃ r2, searchBest wValves 4 = some r2 ∧ 5 ≤ r2 :=
  ⟨by decide, C7_budget_monotone wValves 3 4 5 (by decide) (by decide)⟩

end Day16
